import Mathlib

/-!
A shallow embedding of the record-labelling engine of `label_clusters_gi.py`
(the core of the spneumo_analysis repository), together with theorems about
its specified properties.

Modelling conventions.

* A text file is a list of lines; a line never contains a tab or a newline in
  a field position where the Python code would crash on it (`str.split("\t")`
  unpacked into a fixed number of variables aborts otherwise), so a raw input
  line and its parsed row determine each other and rows are modelled as
  structures.  Input files are newline-terminated, so the `prev_line`
  comparison on raw lines coincides with comparison of parsed rows.
* The Python dict `proteome_protein_map` is modelled as an association list
  that keeps insertion order of keys and updates values in place, exactly as
  a Python dict does.
* Cluster keys are only ever compared for equality by the code, so the key
  type is kept polymorphic (`κ` with decidable equality); the real program
  instantiates it with strings.
* File positions and sizes are in characters of the `List Char` content,
  matching byte positions for the single-byte text the program processes.
-/

namespace LabelClusters

/-- An association list from protein identifiers to accumulated comma-joined
proteome labels; it models the Python dict `proteome_protein_map` built by
`create_proteome_protein_map` (insertion order of keys kept, values updated
in place). -/
abbrev LabelMap := List (String × String)

/-- Dict lookup (`protein_id in proteome_protein_map` / indexing). -/
def mapFind : LabelMap → String → Option String
  | [], _ => none
  | (k, v) :: rest, key => if k = key then some v else mapFind rest key

/-- Python `proteome_protein_map.get(protein_id, nolabel)`. -/
def mapGet (m : LabelMap) (key dflt : String) : String :=
  (mapFind m key).getD dflt

/-- The update performed by `_process_protein_id`: an absent key is inserted
(at the end, as Python dicts keep insertion order), an existing key gets
`"," ++ label` appended to its value. -/
def mapAddLabel : LabelMap → String → String → LabelMap
  | [], key, label => [(key, label)]
  | (k, v) :: rest, key, label =>
      if k = key then (k, v ++ "," ++ label) :: rest
      else (k, v) :: mapAddLabel rest key label

/-- A source (fasta) file: its path and its lines (trailing newlines
stripped). -/
structure SourceFile where
  name : String
  lines : List String
deriving DecidableEq, Repr

/-- Python `os.path.basename`: the part of the path after the last slash
(computed on the character list so that it evaluates by reduction). -/
def basename (path : String) : String :=
  String.mk ((path.data.reverse.takeWhile (fun c => c ≠ '/')).reverse)

/-- Python `RE_REMOVE_EXTENSION.sub("", s)` where the pattern matches a final
dot followed by at least one non-dot character: drop that final dot
segment when it exists. -/
def removeExtensionRe (s : String) : String :=
  let rev := s.data.reverse
  let sfx := rev.takeWhile (fun c => c ≠ '.')
  if sfx.isEmpty then s
  else
    match rev.drop sfx.length with
    | '.' :: rest => String.mk rest.reverse
    | _ => s

/-- Extension stripping in `create_proteome_protein_map`: with an explicit
extension the code slices `proteome_id[0 : -len(extension)]` (for an empty
extension the Python slice `[0:-0]` is `[0:0]`, the empty string); without
one it applies `RE_REMOVE_EXTENSION`. -/
def stripExtension (ext : Option String) (s : String) : String :=
  match ext with
  | some e =>
      if e.length = 0 then ""
      else String.mk (s.data.take (s.data.length - e.length))
  | none => removeExtensionRe s

/-- Python `proteome_id[len(p):]` when a filename front-marker string `p` was
given. -/
def stripPre (pre : Option String) (s : String) : String :=
  match pre with
  | some p => String.mk (s.data.drop p.length)
  | none => s

/-- The label derived from a source file path in `create_proteome_protein_map`:
basename, then extension removal, then optional front-marker removal. -/
def deriveProteomeId (ext pre : Option String) (path : String) : String :=
  stripPre pre (stripExtension ext (basename path))

/-- Python `line.startswith(">")`. -/
def isHeaderLine (line : String) : Bool :=
  match line.data with
  | '>' :: _ => true
  | _ => false

/-- Python `line.rstrip("\n")[1:].split(" ")[0]` (lines are stored without a
trailing newline). -/
def extractProteinId (line : String) : String :=
  String.mk ((line.data.drop 1).takeWhile (fun c => c ≠ ' '))

/-- Scanning the lines of one source file: `_process_protein_id` applied to
every fasta header line, starting from an already accumulated map. -/
def scanFileLines (proteome_id : String) (m : LabelMap) (lines : List String) :
    LabelMap :=
  lines.foldl
    (fun acc line =>
      if isHeaderLine line then mapAddLabel acc (extractProteinId line) proteome_id
      else acc)
    m

/-- Python `create_proteome_protein_map` (the configured read method `lines`,
like the alternative methods `full` and `chunks`, iterates the very same
sequence of lines of each file). -/
def create_proteome_protein_map (ext pre : Option String)
    (files : List SourceFile) : LabelMap :=
  files.foldl
    (fun m f => scanFileLines (deriveProteomeId ext pre f.name) m f.lines) []

/-- A two-column input row `cluster_key TAB record_id`. -/
structure Row2 (κ : Type) where
  cluster_id : κ
  protein_id : String
deriving DecidableEq, Repr

/-- A three-column row of an already partially labelled chunk. -/
structure Row3 (κ : Type) where
  cluster_id : κ
  protein_id : String
  proteome_ids : String
deriving DecidableEq, Repr

/-- An output row `cluster_sequence TAB record_id TAB labels TAB marker`; the
marker column holds `*` exactly when `is_rep` is true. -/
structure OutRow where
  cluster_id : Int
  protein_id : String
  proteome_ids : String
  is_rep : Bool
deriving DecidableEq, Repr

/-- Python `",".join(sorted(set(s.split(","))))`. -/
def sortedLabelSet (s : String) : String :=
  String.intercalate "," ((s.splitOn ",").eraseDups.mergeSort (fun a b => a ≤ b))

/-- Python `"," in proteome_ids`. -/
def hasComma (s : String) : Bool :=
  s.data.contains ','

/-- The `sortlabels` option applied to an accumulated label string (only
performed when the string contains a comma). -/
def applySort (sortlabels : Bool) (s : String) : String :=
  if sortlabels ∧ hasComma s then sortedLabelSet s else s

/-- The loop of Python `label_proteins`: the first integer is
`cluster_counter` (starts at -1), then `prev_cluster` (starts as `None`) and
`prev_line` (starts as the empty string, which never equals a physical input
line, hence `none`).  Returns the written rows and `cluster_counter + 1`. -/
def labelProteinsGo {κ : Type} [DecidableEq κ] (m : LabelMap) (nolabel : String)
    (sortlabels uniq : Bool) :
    Int → Option κ → Option (Row2 κ) → List (Row2 κ) → List OutRow × Int
  | counter, _, _, [] => ([], counter + 1)
  | counter, prevCluster, prevLine, r :: rs =>
    if uniq ∧ prevLine = some r then
      labelProteinsGo m nolabel sortlabels uniq counter prevCluster prevLine rs
    else
      let prevLine' := if uniq then some r else prevLine
      let proteome_ids := applySort sortlabels (mapGet m r.protein_id nolabel)
      if some r.cluster_id ≠ prevCluster then
        let res := labelProteinsGo m nolabel sortlabels uniq (counter + 1)
          (some r.cluster_id) prevLine' rs
        (⟨counter + 1, r.protein_id, proteome_ids, true⟩ :: res.1, res.2)
      else
        let res := labelProteinsGo m nolabel sortlabels uniq counter
          prevCluster prevLine' rs
        (⟨counter, r.protein_id, proteome_ids, false⟩ :: res.1, res.2)

/-- Python `label_proteins`: label the whole input with one map and renumber
the clusters; returns the output rows (after the fixed header) and the
cluster count. -/
def label_proteins {κ : Type} [DecidableEq κ] (m : LabelMap) (nolabel : String)
    (sortlabels uniq : Bool) (rows : List (Row2 κ)) : List OutRow × Int :=
  labelProteinsGo m nolabel sortlabels uniq (-1) none none rows

/-- Label combination of the already-labelled branch of `re_label_proteins`:
`combined = old; if combined: (if new: combined += "," + new) else combined =
new` with Python string truthiness. -/
def combineLabels (old new : String) : String :=
  if old ≠ "" then (if new ≠ "" then old ++ "," ++ new else old) else new

/-- The never-labelled branch of `re_label_proteins` (2-column input): the
optional `uniq` collapse of repeated adjacent lines followed by the lookup
into the map.  `prev_line` starts as the empty string, hence `none`. -/
def relabel2Go {κ : Type} [DecidableEq κ] (m : LabelMap) (nolabel : String)
    (uniq : Bool) : Option (Row2 κ) → List (Row2 κ) → List (Row3 κ)
  | _, [] => []
  | prevLine, r :: rs =>
    if uniq ∧ prevLine = some r then relabel2Go m nolabel uniq prevLine rs
    else
      ⟨r.cluster_id, r.protein_id, mapGet m r.protein_id nolabel⟩ ::
        relabel2Go m nolabel uniq (if uniq then some r else prevLine) rs

/-- The never-labelled branch of `re_label_proteins` from its initial state. -/
def relabel2 {κ : Type} [DecidableEq κ] (m : LabelMap) (nolabel : String)
    (uniq : Bool) (rows : List (Row2 κ)) : List (Row3 κ) :=
  relabel2Go m nolabel uniq none rows

/-- The already-labelled branch of `re_label_proteins` (3-column input): every
row is kept in order, its first two columns are rewritten verbatim and the
new lookup is combined into the labels column. -/
def relabel3 {κ : Type} (m : LabelMap) (nolabel : String)
    (rows : List (Row3 κ)) : List (Row3 κ) :=
  rows.map fun r =>
    ⟨r.cluster_id, r.protein_id,
      combineLabels r.proteome_ids (mapGet m r.protein_id nolabel)⟩

/-- The contents of a chunk file: either still 2-column (never labelled) or
3-column (labelled at least once).  `re_label_proteins` dispatches on the
column count of the first line. -/
abbrev ChunkData (κ : Type) := List (Row2 κ) ⊕ List (Row3 κ)

/-- Python `re_label_proteins`: branch on whether the chunk was labelled
before (3 columns) or not (2 columns); the output is always 3-column. -/
def re_label_proteins {κ : Type} [DecidableEq κ] (m : LabelMap)
    (nolabel : String) (uniq : Bool) : ChunkData κ → ChunkData κ
  | .inl rows => .inr (relabel2 m nolabel uniq rows)
  | .inr rows => .inr (relabel3 m nolabel rows)

/-- Python `simply_label`: relabel into `filename + "_tmp"` and rename the
temporary over the original, so its net effect on the chunk contents is
exactly `re_label_proteins`. -/
def simply_label {κ : Type} [DecidableEq κ] (m : LabelMap) (nolabel : String)
    (uniq : Bool) (chunk : ChunkData κ) : ChunkData κ :=
  re_label_proteins m nolabel uniq chunk

/-- The jitter-extended lock timeout `my_timeout = timeout + randint(0, 20)`
of `lock_and_label`. -/
def effectiveTimeout (timeout jitter : Nat) : Nat :=
  timeout + jitter

/-- Python `lock_and_label`.  Whether the exclusive lock is obtained within
the effective timeout is decided by the environment (the lock file and the
other workers); that outcome enters the model as the oracle `acquired`.  On
success the chunk is relabelled in place and 1 is returned; on `Timeout` the
handler returns 0 without having run `simply_label`. -/
def lock_and_label {κ : Type} [DecidableEq κ] (acquired : Bool) (m : LabelMap)
    (nolabel : String) (uniq : Bool) (chunk : ChunkData κ) :
    Int × ChunkData κ :=
  if acquired then (1, simply_label m nolabel uniq chunk) else (0, chunk)

/-- State of the renumbering loop shared by `combine_output_chunks` (and,
through the bridge lemmas, `label_proteins`): `cluster_counter`,
`prev_cluster` and `prev_line`. -/
structure EState (κ : Type) where
  counter : Int
  prevCluster : Option κ
  prevLine : Option (Row3 κ)
deriving DecidableEq

/-- The body of the `combine_output_chunks` loop on a stream of 3-column
rows: optional collapse of a row equal to the previous raw line, optional
label sorting, and renumbering at every cluster-key change. -/
def renumberGo {κ : Type} [DecidableEq κ] (sortlabels uniq : Bool) :
    EState κ → List (Row3 κ) → List OutRow × EState κ
  | st, [] => ([], st)
  | st, r :: rs =>
    if uniq ∧ st.prevLine = some r then renumberGo sortlabels uniq st rs
    else
      let st1 : EState κ :=
        if uniq then ⟨st.counter, st.prevCluster, some r⟩ else st
      let proteome_ids := applySort sortlabels r.proteome_ids
      if some r.cluster_id ≠ st1.prevCluster then
        let st2 : EState κ := ⟨st1.counter + 1, some r.cluster_id, st1.prevLine⟩
        let res := renumberGo sortlabels uniq st2 rs
        (⟨st2.counter, r.protein_id, proteome_ids, true⟩ :: res.1, res.2)
      else
        let res := renumberGo sortlabels uniq st1 rs
        (⟨st1.counter, r.protein_id, proteome_ids, false⟩ :: res.1, res.2)

/-- The outer loop of `combine_output_chunks`: the chunk files are read one
after the other while `cluster_counter`, `prev_cluster` and `prev_line`
persist across the chunk boundaries. -/
def combineChunksGo {κ : Type} [DecidableEq κ] (sortlabels uniq : Bool) :
    EState κ → List (List (Row3 κ)) → List OutRow × EState κ
  | st, [] => ([], st)
  | st, c :: cs =>
    let res := renumberGo sortlabels uniq st c
    let rest := combineChunksGo sortlabels uniq res.2 cs
    (res.1 ++ rest.1, rest.2)

/-- Python `combine_output_chunks`: concatenate the labelled chunks, renumber
the clusters and return the output rows (after the header) and the cluster
count. -/
def combine_output_chunks {κ : Type} [DecidableEq κ] (sortlabels uniq : Bool)
    (chunks : List (List (Row3 κ))) : List OutRow × Int :=
  let res := combineChunksGo sortlabels uniq ⟨-1, none, none⟩ chunks
  (res.1, res.2.counter + 1)

/-- Python `proteome_ids.lstrip(",")`. -/
def lstripCommas (s : String) : String :=
  String.mk (s.data.dropWhile (fun c => c = ','))

/-- The zip loop of `combine_output_files`.  The first copy provides the
cluster key and the record id; the label fields of the remaining copies are
appended when non-empty, leading commas are stripped, and the stream is
renumbered.  `prev_line` holds only the first two columns here.  The loop
ends as soon as any copy is exhausted (Python `zip` semantics). -/
def combineFilesGo {κ : Type} [DecidableEq κ] (sortlabels uniq : Bool) :
    Int → Option κ → Option (κ × String) → List (Row3 κ) →
      List (List (Row3 κ)) → List OutRow × Int
  | counter, _, _, [], _ => ([], counter + 1)
  | counter, prevCluster, prevPair, r :: rs, others =>
    if others.any (fun c => c.isEmpty) then ([], counter + 1)
    else if uniq ∧ prevPair = some (r.cluster_id, r.protein_id) then
      combineFilesGo sortlabels uniq counter prevCluster prevPair rs
        (others.map List.tail)
    else
      let prevPair' :=
        if uniq then some (r.cluster_id, r.protein_id) else prevPair
      let merged :=
        others.foldl
          (fun acc c =>
            let np := (c.headD ⟨r.cluster_id, "", ""⟩).proteome_ids
            if np ≠ "" then acc ++ "," ++ np else acc)
          r.proteome_ids
      let proteome_ids := applySort sortlabels (lstripCommas merged)
      if some r.cluster_id ≠ prevCluster then
        let res := combineFilesGo sortlabels uniq (counter + 1)
          (some r.cluster_id) prevPair' rs (others.map List.tail)
        (⟨counter + 1, r.protein_id, proteome_ids, true⟩ :: res.1, res.2)
      else
        let res := combineFilesGo sortlabels uniq counter prevCluster
          prevPair' rs (others.map List.tail)
        (⟨counter, r.protein_id, proteome_ids, false⟩ :: res.1, res.2)

/-- Python `combine_output_files` (clone mode): read all labelled copies in
lock-step and merge them row by row. -/
def combine_output_files {κ : Type} [DecidableEq κ] (sortlabels uniq : Bool)
    (copies : List (List (Row3 κ))) : List OutRow × Int :=
  match copies with
  | [] => ([], 0)
  | c :: cs => combineFilesGo sortlabels uniq (-1) none none c cs

/-- The 3-column view of a chunk.  A chunk that never went through a single
labelling pass is still 2-column and the Python combiners would abort on it
(too few columns); the pipelines below are only used with at least one pass
per chunk, where that case cannot arise, so it is mapped to the empty list. -/
def chunkRows3 {κ : Type} : ChunkData κ → List (Row3 κ)
  | .inl _ => []
  | .inr rows => rows

/-- One labelling pass per batch map, in batch order, on one chunk — the work
the pool of workers performs on a shared chunk, each pass running under the
chunk's exclusive lock. -/
def applyBatchPasses {κ : Type} [DecidableEq κ] (nolabel : String)
    (uniq : Bool) (maps : List LabelMap) (chunk : ChunkData κ) : ChunkData κ :=
  maps.foldl (fun c m => re_label_proteins m nolabel uniq c) chunk

/-- Shared-chunk execution: the input is split into line-aligned chunks, every
chunk is relabelled once per batch map, and `combine_output_chunks`
concatenates and renumbers. -/
def sharedChunkPipeline {κ : Type} [DecidableEq κ] (nolabel : String)
    (sortlabels uniq : Bool) (maps : List LabelMap)
    (chunks : List (List (Row2 κ))) : List OutRow × Int :=
  combine_output_chunks sortlabels uniq
    (chunks.map fun c => chunkRows3 (applyBatchPasses nolabel uniq maps (Sum.inl c)))

/-- Clone-mode execution: every worker labels its own full copy of the input
with its batch maps, and `combine_output_files` zips the copies and
renumbers. -/
def clonePipeline {κ : Type} [DecidableEq κ] (nolabel : String)
    (sortlabels uniq : Bool) (wmaps : List (List LabelMap))
    (input : List (Row2 κ)) : List OutRow × Int :=
  combine_output_files sortlabels uniq
    (wmaps.map fun ms => chunkRows3 (applyBatchPasses nolabel uniq ms (Sum.inl input)))

/-- Python `clone_file`: `copies_num` byte-identical copies of the input. -/
def clone_file {κ : Type} (input : List (Row2 κ)) (copies_num : Nat) :
    List (List (Row2 κ)) :=
  List.replicate copies_num input

/-- Characters consumed by one Python `readline()` from the current position:
up to and including the first newline, or to the end of the input. -/
def lineEnd : List Char → Nat
  | [] => 0
  | c :: rest => if c = '\n' then 1 else 1 + lineEnd rest

/-- Python `_find_next_newline`: position right after the first newline found
from `startpos` on (the code seeks to `startpos - 1` and reads one line), the
file size when there is none or `startpos` exceeds it, and 0 when `startpos`
is at the start. -/
def find_next_newline (content : List Char) (startpos : Nat) : Nat :=
  if startpos > content.length then content.length
  else if startpos = 0 then 0
  else (startpos - 1) + lineEnd (content.drop (startpos - 1))

/-- The loop of `compute_split_positions`, started at block start `start`:
the block ends at the first line end at or after `start + splitsize`; the
last block is the one ending at the file size.  The final fallback branch
(`e ≤ start`) can only be entered when `splitsize = 0` and the previous
character is a newline, where the Python loop would not terminate. -/
def computeSplitGo (content : List Char) (splitsize : Nat) (start : Nat) :
    List Nat × List Nat :=
  let e := find_next_newline content (start + splitsize)
  if e = content.length then ([start], [e - start])
  else if h : start < e then
    let res := computeSplitGo content splitsize e
    (start :: res.1, (e - start) :: res.2)
  else ([start], [e - start])
termination_by content.length - start
decreasing_by
  have hle : ∀ l : List Char, lineEnd l ≤ l.length := by
    intro l
    induction l with
    | nil => simp [lineEnd]
    | cons c rest ih =>
        simp only [lineEnd, List.length_cons]
        split <;> omega
  have he : find_next_newline content (start + splitsize) ≤ content.length := by
    unfold find_next_newline
    split
    · omega
    · split
      · omega
      · have := hle (content.drop (start + splitsize - 1))
        simp only [List.length_drop] at this
        omega
  omega

/-- Python `compute_split_positions`: the list of block start positions and
the list of block sizes. -/
def compute_split_positions (content : List Char) (splitsize : Nat) :
    List Nat × List Nat :=
  computeSplitGo content splitsize 0

/-- Python `split_file`: materialize the chunk ranges computed by
`compute_split_positions` (each chunk file receives exactly `size` characters
read from its start position). -/
def split_file (content : List Char) (splitsize : Nat) : List (List Char) :=
  let res := compute_split_positions content splitsize
  (res.1.zip res.2).map fun ps => (content.drop ps.1).take ps.2

/-- Python `calculate_blocksize`: raises `RuntimeError` on an empty file,
otherwise `int(ceil(filesize / number_of_chunks))` (modelled as exact ceiling
division on naturals; the caller always passes a positive chunk count). -/
def calculate_blocksize (filesize number_of_chunks : Nat) : Except String Nat :=
  if filesize = 0 then Except.error "File is empty"
  else Except.ok ((filesize + number_of_chunks - 1) / number_of_chunks)

/-- Number of maximal runs of equal adjacent values, counted relative to an
optional previous value (used to state the cluster-counting properties). -/
def numRunsFrom {α : Type} [DecidableEq α] : Option α → List α → Nat
  | _, [] => 0
  | p, x :: xs => (if some x = p then 0 else 1) + numRunsFrom (some x) xs

/-- Number of maximal runs of equal adjacent values of a list. -/
def numRuns {α : Type} [DecidableEq α] (l : List α) : Nat :=
  numRunsFrom none l

/-- An output row reduced back to the two input columns `cluster_sequence`
and `record_id`.  In the file the cluster number is written in decimal;
decimal rendering of integers is injective and the engine compares cluster
keys only for equality, so the re-read key is modelled as the integer
itself. -/
def stripOutRow (o : OutRow) : Row2 Int :=
  ⟨o.cluster_id, o.protein_id⟩

/-- Specification-side accumulator for the map builder: the first occurrence
of an identifier sets its label, every later occurrence appends a comma and
that occurrence's label. -/
def joinOpt : Option String → List String → Option String
  | o, [] => o
  | none, l :: ls => joinOpt (some l) ls
  | some v, l :: ls => joinOpt (some (v ++ "," ++ l)) ls

/-- Number of fasta header lines of a file whose extracted identifier is
`key`. -/
def headerCount (lines : List String) (key : String) : Nat :=
  (lines.filter fun l => isHeaderLine l && (extractProteinId l == key)).length

/-- The labels contributed by one source file for identifier `key`: one copy
of the file's derived label per matching header line. -/
def fileOccLabels (ext pre : Option String) (f : SourceFile) (key : String) :
    List String :=
  List.replicate (headerCount f.lines key) (deriveProteomeId ext pre f.name)

/-- All labels contributed for identifier `key` by a list of source files, in
scan order: list order across files, header order within a file. -/
def occLabels (ext pre : Option String) (files : List SourceFile)
    (key : String) : List String :=
  (files.map fun f => fileOccLabels ext pre f key).flatten

/-- The per-row labelling a single map performs on a fresh 2-column row. -/
def labelRow {κ : Type} (m : LabelMap) (nolabel : String) (r : Row2 κ) :
    Row3 κ :=
  ⟨r.cluster_id, r.protein_id, mapGet m r.protein_id nolabel⟩

/-- Collapse of runs of equal adjacent elements relative to an optional
previous element (the effect of the `uniq` option on a stream). -/
def collapseFrom {α : Type} [DecidableEq α] : Option α → List α → List α
  | _, [] => []
  | p, x :: xs =>
    if p = some x then collapseFrom p xs
    else x :: collapseFrom (some x) xs

/-- A string that is nonempty and does not start with a comma (sane derived
labels have this shape). -/
abbrev noLeadComma (s : String) : Prop :=
  s.data.headD ',' ≠ ','

/-- The comma-prefixed concatenation of a list of label strings (the tail a
label accumulator appends after its first entry). -/
def commaTail : List String → String
  | [] => ""
  | l :: ls => "," ++ l ++ commaTail ls

/-- The number of rows of the first copy that the lock-step zip of
`combine_output_files` actually reads: one row per iteration until the first
copy is exhausted or `readline` on any other copy returns the empty string
(the `if any(...): break` in the loop), the other copies advancing on every
iteration, skipped or not. -/
def zipLen {κ : Type} : List (Row3 κ) → List (List (Row3 κ)) → Nat
  | [], _ => 0
  | _ :: rs, others =>
    if others.any (fun c => c.isEmpty) then 0
    else zipLen rs (others.map List.tail) + 1

/-! ### The label map builder -/

@[simp]
theorem joinOpt_nil (o : Option String) : joinOpt o [] = o := by
  cases o <;> rfl

theorem joinOpt_cons_none (l : String) (ls : List String) :
    joinOpt none (l :: ls) = joinOpt (some l) ls := rfl

theorem joinOpt_cons_some (v l : String) (ls : List String) :
    joinOpt (some v) (l :: ls) = joinOpt (some (v ++ "," ++ l)) ls := rfl

theorem mapFind_mapAddLabel (m : LabelMap) (k lab key : String) :
    mapFind (mapAddLabel m k lab) key =
      if key = k then
        match mapFind m k with
        | none => some lab
        | some v => some (v ++ "," ++ lab)
      else mapFind m key := by
  induction m with
  | nil =>
      by_cases h : key = k
      · subst h
        simp [mapAddLabel, mapFind]
      · have h' : ¬ k = key := fun hh => h hh.symm
        simp [mapAddLabel, mapFind, h, h']
  | cons hd tl ih =>
      obtain ⟨k', v⟩ := hd
      by_cases h1 : k' = k
      · subst h1
        by_cases h2 : key = k'
        · subst h2
          simp [mapAddLabel, mapFind]
        · have h2' : ¬ k' = key := fun hh => h2 hh.symm
          simp [mapAddLabel, mapFind, h2, h2']
      · by_cases h2 : key = k'
        · have h3 : ¬ key = k := fun hh => h1 (h2.symm.trans hh)
          subst h2
          simp [mapAddLabel, mapFind, h1, h3]
        · have h2' : ¬ k' = key := fun hh => h2 hh.symm
          simp [mapAddLabel, mapFind, h1, h2, h2', ih]

theorem joinOpt_append (o : Option String) (xs ys : List String) :
    joinOpt o (xs ++ ys) = joinOpt (joinOpt o xs) ys := by
  induction xs generalizing o with
  | nil => simp
  | cons x xs ih =>
      cases o
      · rw [List.cons_append, joinOpt_cons_none, joinOpt_cons_none, ih]
      · rw [List.cons_append, joinOpt_cons_some, joinOpt_cons_some, ih]

theorem mapFind_scanFileLines (lab : String) (m : LabelMap)
    (lines : List String) (key : String) :
    mapFind (scanFileLines lab m lines) key =
      joinOpt (mapFind m key) (List.replicate (headerCount lines key) lab) := by
  induction lines generalizing m with
  | nil => simp [scanFileLines, headerCount]
  | cons l rest ih =>
      by_cases hh : isHeaderLine l
      · by_cases hk : extractProteinId l = key
        · have hcount : headerCount (l :: rest) key = headerCount rest key + 1 := by
            simp [headerCount, List.filter_cons, hh, hk]
          have hstep : scanFileLines lab m (l :: rest) =
              scanFileLines lab (mapAddLabel m (extractProteinId l) lab) rest := by
            simp [scanFileLines, hh]
          rw [hstep, ih, hcount, mapFind_mapAddLabel]
          rw [hk, if_pos rfl]
          cases hfind : mapFind m key
          · rw [List.replicate_succ, joinOpt_cons_none]
          · rw [List.replicate_succ, joinOpt_cons_some]
        · have hcount : headerCount (l :: rest) key = headerCount rest key := by
            simp [headerCount, List.filter_cons, hh, hk]
          have hstep : scanFileLines lab m (l :: rest) =
              scanFileLines lab (mapAddLabel m (extractProteinId l) lab) rest := by
            simp [scanFileLines, hh]
          have hne : ¬ key = extractProteinId l := fun h => hk h.symm
          rw [hstep, ih, hcount, mapFind_mapAddLabel, if_neg hne]
      · have hcount : headerCount (l :: rest) key = headerCount rest key := by
          simp [headerCount, List.filter_cons, hh]
        have hstep : scanFileLines lab m (l :: rest) = scanFileLines lab m rest := by
          simp [scanFileLines, hh]
        rw [hstep, ih, hcount]

theorem mapFind_create_foldl (ext pre : Option String) (files : List SourceFile)
    (m : LabelMap) (key : String) :
    mapFind
        (files.foldl
          (fun m f => scanFileLines (deriveProteomeId ext pre f.name) m f.lines) m)
        key =
      joinOpt (mapFind m key) (occLabels ext pre files key) := by
  induction files generalizing m with
  | nil => simp [occLabels]
  | cons f fs ih =>
      rw [List.foldl_cons, ih]
      rw [show occLabels ext pre (f :: fs) key =
        fileOccLabels ext pre f key ++ occLabels ext pre fs key from by
          simp [occLabels]]
      rw [joinOpt_append, mapFind_scanFileLines]
      rfl

/-- **C5** — `create_proteome_protein_map` maps each record id to the
accumulation of the derived labels of the source files containing it: the
first occurrence sets the label, each later occurrence appends a comma and
that occurrence's file label; files are processed in input list order,
headers within a file in file order, a file with no matching records
contributes nothing (and raises no error), and the result is a pure function
of the inputs. -/
theorem create_map_characterization (ext pre : Option String)
    (files : List SourceFile) (key : String) :
    mapFind (create_proteome_protein_map ext pre files) key =
      joinOpt none (occLabels ext pre files key) := by
  have h := mapFind_create_foldl ext pre files [] key
  simpa [create_proteome_protein_map, mapFind] using h

/-! ### Frame properties of `re_label_proteins` (C10) and the lock wrapper (C8) -/

theorem relabel2Go_false {κ : Type} [DecidableEq κ] (m : LabelMap)
    (nolabel : String) (p : Option (Row2 κ)) (rows : List (Row2 κ)) :
    relabel2Go m nolabel false p rows = rows.map (labelRow m nolabel) := by
  induction rows generalizing p with
  | nil => rfl
  | cons r rs ih => simp [relabel2Go, labelRow, ih]

/-- **C10** — `re_label_proteins` never alters the first two columns: on a
2-column chunk with `uniq` disabled every row is emitted, in input order,
with `cluster_key` and `record_id` copied verbatim and the looked-up labels
as third column; on a 3-column chunk every row is emitted, in input order,
with the first two columns copied verbatim and the existing labels field only
ever appended to (a comma and the new labels after the old ones), never
removed, truncated or reordered. -/
theorem re_label_frame {κ : Type} [DecidableEq κ] (m : LabelMap)
    (nolabel : String) (uniq : Bool) (rows2 : List (Row2 κ))
    (rows3 : List (Row3 κ)) :
    List.Forall₂
        (fun (r : Row2 κ) (r' : Row3 κ) =>
          r'.cluster_id = r.cluster_id ∧ r'.protein_id = r.protein_id ∧
            r'.proteome_ids = mapGet m r.protein_id nolabel)
        rows2 (chunkRows3 (re_label_proteins m nolabel false (Sum.inl rows2))) ∧
      List.Forall₂
        (fun (r r' : Row3 κ) =>
          r'.cluster_id = r.cluster_id ∧ r'.protein_id = r.protein_id ∧
            ∃ t, r'.proteome_ids = r.proteome_ids ++ t ∧
              (r.proteome_ids ≠ "" →
                t = "" ∨ t = "," ++ mapGet m r.protein_id nolabel))
        rows3 (chunkRows3 (re_label_proteins m nolabel uniq (Sum.inr rows3))) := by
  constructor
  · simp only [re_label_proteins, chunkRows3, relabel2, relabel2Go_false]
    rw [List.forall₂_map_right_iff, List.forall₂_same]
    intro r _
    exact ⟨rfl, rfl, rfl⟩
  · simp only [re_label_proteins, chunkRows3, relabel3]
    rw [List.forall₂_map_right_iff, List.forall₂_same]
    intro r _
    refine ⟨rfl, rfl, ?_⟩
    by_cases hold : r.proteome_ids = ""
    · refine ⟨mapGet m r.protein_id nolabel, ?_, fun h => absurd hold h⟩
      simp [combineLabels, hold]
    · by_cases hnew : mapGet m r.protein_id nolabel = ""
      · exact ⟨"", by simp [combineLabels, hold, hnew], fun _ => Or.inl rfl⟩
      · exact ⟨"," ++ mapGet m r.protein_id nolabel,
          by simp [combineLabels, hold, hnew, String.append_assoc],
          fun _ => Or.inr rfl⟩

/-- **C8** — `lock_and_label` waits at most the base timeout plus a jitter of
at most 20 seconds; when the lock is obtained it relabels the chunk and
returns 1; when acquisition times out it returns 0 and the chunk contents
are untouched, so an immediate retry that does obtain the lock produces
exactly the result a first-try success would have produced. -/
theorem lock_and_label_spec {κ : Type} [DecidableEq κ] (m : LabelMap)
    (nolabel : String) (uniq : Bool) (chunk : ChunkData κ)
    (timeout jitter : Nat) (hj : jitter ≤ 20) :
    effectiveTimeout timeout jitter ≤ timeout + 20 ∧
      lock_and_label true m nolabel uniq chunk =
        (1, simply_label m nolabel uniq chunk) ∧
      lock_and_label false m nolabel uniq chunk = (0, chunk) ∧
      lock_and_label true m nolabel uniq
          (lock_and_label false m nolabel uniq chunk).2 =
        (1, simply_label m nolabel uniq chunk) := by
  refine ⟨?_, rfl, rfl, rfl⟩
  simp only [effectiveTimeout]
  omega

/-- Witness for the C8 theorem at a concrete chunk, map and jitter. -/
theorem lock_and_label_spec_witness :
    effectiveTimeout 90 5 ≤ 90 + 20 ∧
      lock_and_label true [("p1", "x")] "" false
          (Sum.inl [(⟨"A", "p1"⟩ : Row2 String)]) =
        (1, simply_label [("p1", "x")] "" false
          (Sum.inl [(⟨"A", "p1"⟩ : Row2 String)])) ∧
      lock_and_label false [("p1", "x")] "" false
          (Sum.inl [(⟨"A", "p1"⟩ : Row2 String)]) =
        (0, Sum.inl [(⟨"A", "p1"⟩ : Row2 String)]) ∧
      lock_and_label true [("p1", "x")] "" false
          (lock_and_label false [("p1", "x")] "" false
            (Sum.inl [(⟨"A", "p1"⟩ : Row2 String)])).2 =
        (1, simply_label [("p1", "x")] "" false
          (Sum.inl [(⟨"A", "p1"⟩ : Row2 String)])) :=
  lock_and_label_spec [("p1", "x")] "" false
    (Sum.inl [(⟨"A", "p1"⟩ : Row2 String)]) 90 5 (by decide)

/-! ### The line-safe splitter -/

theorem lineEnd_le (l : List Char) : lineEnd l ≤ l.length := by
  induction l with
  | nil => simp [lineEnd]
  | cons c rest ih =>
      simp only [lineEnd, List.length_cons]
      split <;> omega

theorem lineEnd_pos (l : List Char) (h : l ≠ []) : 1 ≤ lineEnd l := by
  cases l with
  | nil => exact absurd rfl h
  | cons c rest =>
      simp only [lineEnd]
      split <;> omega

theorem lineEnd_newline (l : List Char) :
    lineEnd l = l.length ∨ l.getD (lineEnd l - 1) ' ' = '\n' := by
  induction l with
  | nil => left; rfl
  | cons c rest ih =>
      by_cases hc : c = '\n'
      · right
        simp [lineEnd, hc, List.getD]
      · have hl : lineEnd (c :: rest) = 1 + lineEnd rest := by
          simp [lineEnd, hc]
        cases rest with
        | nil => left; simp [hl, lineEnd]
        | cons d t =>
            have hpos : 1 ≤ lineEnd (d :: t) := lineEnd_pos _ (by simp)
            rcases ih with h | h
            · left
              simp only [hl, h, List.length_cons]
              omega
            · right
              rw [hl]
              have hidx : 1 + lineEnd (d :: t) - 1 = (lineEnd (d :: t) - 1) + 1 := by
                omega
              rw [hidx, List.getD_cons_succ]
              exact h

theorem find_next_newline_le (content : List Char) (p : Nat) :
    find_next_newline content p ≤ content.length := by
  unfold find_next_newline
  split
  · omega
  · split
    · omega
    · have := lineEnd_le (content.drop (p - 1))
      simp only [List.length_drop] at this
      omega

theorem find_next_newline_lt (content : List Char) {start splitsize : Nat}
    (h1 : start < content.length) (hs : 1 ≤ splitsize) :
    start < find_next_newline content (start + splitsize) := by
  unfold find_next_newline
  split
  · omega
  · split
    · omega
    · rename_i hgt hzero
      have hne : content.drop (start + splitsize - 1) ≠ [] := by
        intro hempty
        have := congrArg List.length hempty
        simp only [List.length_drop, List.length_nil] at this
        omega
      have := lineEnd_pos _ hne
      omega

theorem find_next_newline_newline (content : List Char) (p : Nat)
    (hp : 1 ≤ p) :
    find_next_newline content p = content.length ∨
      content.getD (find_next_newline content p - 1) ' ' = '\n' := by
  unfold find_next_newline
  split
  · left; rfl
  · split
    · exfalso; omega
    · rename_i hgt hzero
      rcases lineEnd_newline (content.drop (p - 1)) with h | h
      · left
        rw [h, List.length_drop]
        omega
      · right
        have hpos : 1 ≤ lineEnd (content.drop (p - 1)) := by
          apply lineEnd_pos
          intro hempty
          have := congrArg List.length hempty
          simp only [List.length_drop, List.length_nil] at this
          omega
        rw [List.getD_eq_getElem?_getD] at h ⊢
        rw [List.getElem?_drop] at h
        have hidx : p - 1 + (lineEnd (content.drop (p - 1)) - 1) =
            p - 1 + lineEnd (content.drop (p - 1)) - 1 := by omega
        rw [hidx] at h
        exact h

theorem computeSplitGo_eq_last (content : List Char) (splitsize start : Nat)
    (he : find_next_newline content (start + splitsize) = content.length) :
    computeSplitGo content splitsize start =
      ([start], [find_next_newline content (start + splitsize) - start]) := by
  unfold computeSplitGo
  simp [he]

theorem computeSplitGo_eq_step (content : List Char) (splitsize start : Nat)
    (he : find_next_newline content (start + splitsize) ≠ content.length)
    (hlt : start < find_next_newline content (start + splitsize)) :
    computeSplitGo content splitsize start =
      (start ::
          (computeSplitGo content splitsize
            (find_next_newline content (start + splitsize))).1,
        (find_next_newline content (start + splitsize) - start) ::
          (computeSplitGo content splitsize
            (find_next_newline content (start + splitsize))).2) := by
  conv_lhs => unfold computeSplitGo
  simp [he, hlt]

theorem computeSplitGo_spec (content : List Char) (splitsize : Nat)
    (hs : 1 ≤ splitsize) :
    ∀ n start, content.length - start = n → start < content.length →
      (computeSplitGo content splitsize start).1.length =
          (computeSplitGo content splitsize start).2.length ∧
        (computeSplitGo content splitsize start).1 =
          start ::
            (((computeSplitGo content splitsize start).1.zip
                (computeSplitGo content splitsize start).2).map
              fun q => q.1 + q.2).dropLast ∧
        (((computeSplitGo content splitsize start).1.zip
              (computeSplitGo content splitsize start).2).map
            fun q => q.1 + q.2).getLast? = some content.length ∧
        (((computeSplitGo content splitsize start).1.zip
              (computeSplitGo content splitsize start).2).map
            fun q => (content.drop q.1).take q.2).flatten = content.drop start ∧
        ∀ p ∈ (computeSplitGo content splitsize start).1,
          p = start ∨ content.getD (p - 1) ' ' = '\n' := by
  intro n
  induction n using Nat.strong_induction_on with
  | _ n ih =>
      intro start hn hstart
      have hlt : start < find_next_newline content (start + splitsize) :=
        find_next_newline_lt content hstart hs
      have hle : find_next_newline content (start + splitsize) ≤ content.length :=
        find_next_newline_le content (start + splitsize)
      by_cases he : find_next_newline content (start + splitsize) = content.length
      · rw [computeSplitGo_eq_last content splitsize start he]
        refine ⟨rfl, by simp, ?_, ?_, by simp⟩
        · simp only [List.zip_cons_cons, List.zip_nil_right, List.map_cons,
            List.map_nil, List.getLast?_singleton, Option.some.injEq]
          omega
        · simp only [List.zip_cons_cons, List.zip_nil_right, List.map_cons,
            List.map_nil, List.flatten_cons, List.flatten_nil, List.append_nil]
          have hfull : (content.drop start).length ≤
              find_next_newline content (start + splitsize) - start := by
            simp only [List.length_drop]
            omega
          rw [List.take_of_length_le hfull]
      · rw [computeSplitGo_eq_step content splitsize start he hlt]
        have hlen : find_next_newline content (start + splitsize) <
            content.length := lt_of_le_of_ne hle he
        obtain ⟨ih1, ih2, ih3, ih4, ih5⟩ :=
          ih (content.length - find_next_newline content (start + splitsize))
            (by omega) (find_next_newline content (start + splitsize)) rfl hlen
        have hse : start + (find_next_newline content (start + splitsize) - start) =
            find_next_newline content (start + splitsize) := by omega
        set A := computeSplitGo content splitsize
          (find_next_newline content (start + splitsize)) with hA
        set M : List Nat := (A.1.zip A.2).map fun q => q.1 + q.2 with hM
        have hMne : M ≠ [] := by
          intro hnil
          rw [hnil] at ih3
          simp at ih3
        obtain ⟨m, ms, hMeq⟩ := List.exists_cons_of_ne_nil hMne
        refine ⟨by simp [ih1], ?_, ?_, ?_, ?_⟩
        · simp only [List.zip_cons_cons, List.map_cons, hse]
          rw [← hM, hMeq, show ∀ x : Nat,
            (x :: m :: ms).dropLast = x :: (m :: ms).dropLast from fun _ => rfl]
          rw [show A.1 = find_next_newline content (start + splitsize) ::
            (m :: ms).dropLast from by rw [← hMeq]; exact ih2]
        · simp only [List.zip_cons_cons, List.map_cons, ← hM, hMeq,
            List.getLast?_cons_cons]
          rw [← hMeq]
          exact ih3
        · simp only [List.zip_cons_cons, List.map_cons, List.flatten_cons]
          rw [ih4]
          have hdd : content.drop (find_next_newline content (start + splitsize)) =
              (content.drop start).drop
                (find_next_newline content (start + splitsize) - start) := by
            rw [List.drop_drop]
            congr 1
            omega
          rw [hdd, List.take_append_drop]
        · intro p hp
          simp only [List.mem_cons] at hp
          rcases hp with hp | hp
          · exact Or.inl hp
          · rcases ih5 p hp with hp' | hp'
            · right
              rcases find_next_newline_newline content (start + splitsize)
                (by omega) with hq | hq
              · exact absurd hq he
              · rw [hp']
                exact hq
            · exact Or.inr hp'

theorem find_next_newline_full (content : List Char) (splitsize : Nat)
    (hs : 1 ≤ splitsize) (hpos : 0 < content.length)
    (hbig : content.length ≤ splitsize) :
    find_next_newline content (0 + splitsize) = content.length := by
  unfold find_next_newline
  split
  · rfl
  · split
    · omega
    · rename_i hgt hzero
      have hdl : (content.drop (0 + splitsize - 1)).length = 1 := by
        simp only [List.length_drop]
        omega
      have ha := lineEnd_le (content.drop (0 + splitsize - 1))
      have hb := lineEnd_pos (content.drop (0 + splitsize - 1)) (by
        intro hnil
        rw [hnil] at hdl
        simp at hdl)
      omega

/-- **C6** — for a non-empty file and a positive target chunk size, the
chunks computed by `compute_split_positions` and materialized by `split_file`
partition the file exactly: the first chunk starts at byte 0, each next chunk
starts where the previous one ended, the last ends at the file length,
concatenating all chunk contents reproduces the file, every chunk boundary
sits right after a newline (never inside a physical line), and a target size
at least the file length yields exactly one chunk. -/
theorem splitter_correct (content : List Char) (splitsize : Nat)
    (hne : content ≠ []) (hs : 1 ≤ splitsize) :
    (compute_split_positions content splitsize).1.length =
        (compute_split_positions content splitsize).2.length ∧
      (compute_split_positions content splitsize).1 =
        0 ::
          ((((compute_split_positions content splitsize).1.zip
              (compute_split_positions content splitsize).2).map
            fun q => q.1 + q.2).dropLast) ∧
      ((((compute_split_positions content splitsize).1.zip
            (compute_split_positions content splitsize).2).map
          fun q => q.1 + q.2).getLast? = some content.length) ∧
      (split_file content splitsize).flatten = content ∧
      (∀ p ∈ (compute_split_positions content splitsize).1,
        p = 0 ∨ content.getD (p - 1) ' ' = '\n') ∧
      (content.length ≤ splitsize →
        compute_split_positions content splitsize = ([0], [content.length])) := by
  have hpos : 0 < content.length := List.length_pos.mpr hne
  obtain ⟨h1, h2, h3, h4, h5⟩ :=
    computeSplitGo_spec content splitsize hs content.length 0 (by omega) hpos
  refine ⟨h1, h2, h3, ?_, h5, ?_⟩
  · have : (split_file content splitsize).flatten = content.drop 0 := h4
    simpa using this
  · intro hbig
    have he := find_next_newline_full content splitsize hs hpos hbig
    rw [compute_split_positions, computeSplitGo_eq_last content splitsize 0 he,
      he]
    simp

/-- Witness for the C6 theorem on the concrete file `"ab\ncd\n"` with target
chunk size 3. -/
theorem splitter_correct_witness :
    "ab\ncd\n".data ≠ [] ∧ 1 ≤ 3 ∧
      ((compute_split_positions "ab\ncd\n".data 3).1.length =
          (compute_split_positions "ab\ncd\n".data 3).2.length ∧
        (compute_split_positions "ab\ncd\n".data 3).1 =
          0 ::
            ((((compute_split_positions "ab\ncd\n".data 3).1.zip
                (compute_split_positions "ab\ncd\n".data 3).2).map
              fun q => q.1 + q.2).dropLast) ∧
        ((((compute_split_positions "ab\ncd\n".data 3).1.zip
              (compute_split_positions "ab\ncd\n".data 3).2).map
            fun q => q.1 + q.2).getLast? = some "ab\ncd\n".data.length) ∧
        (split_file "ab\ncd\n".data 3).flatten = "ab\ncd\n".data ∧
        (∀ p ∈ (compute_split_positions "ab\ncd\n".data 3).1,
          p = 0 ∨ "ab\ncd\n".data.getD (p - 1) ' ' = '\n') ∧
        ("ab\ncd\n".data.length ≤ 3 →
          compute_split_positions "ab\ncd\n".data 3 =
            ([0], ["ab\ncd\n".data.length]))) :=
  ⟨by decide, by decide, splitter_correct "ab\ncd\n".data 3 (by decide) (by decide)⟩

/-- **C7 counterexample** — with an explicitly specified chunk size, the
splitter run on an empty input file does not abort: it happily produces one
chunk, and that chunk is empty.  (The empty-file check lives only in
`calculate_blocksize`, the path used when the chunk size is computed from the
thread count.) -/
theorem empty_split_produces_chunk :
    compute_split_positions [] 5242880 = ([0], [0]) ∧
      split_file [] 5242880 = [[]] := by
  have he : find_next_newline [] (0 + 5242880) = ([] : List Char).length := by
    decide
  have h1 : compute_split_positions [] 5242880 = ([0], [0]) := by
    rw [compute_split_positions, computeSplitGo_eq_last [] 5242880 0 he, he]
    rfl
  have h2 : split_file [] 5242880 = [[]] := by
    rw [split_file, h1]
    rfl
  exact ⟨h1, h2⟩

/-- **C7 amended** — an empty input file is a fatal error on the path where
the chunk size is computed from the thread count: `calculate_blocksize`
raises before any chunk is produced.  (With an explicitly specified chunk
size no such check runs and `split_file` produces a single empty chunk, see
the counterexample.) -/
theorem calculate_blocksize_empty_fatal (filesize number_of_chunks : Nat)
    (h : filesize = 0) :
    calculate_blocksize filesize number_of_chunks =
      Except.error "File is empty" := by
  rw [h]
  rfl

/-- Witness for the amended C7 theorem. -/
theorem calculate_blocksize_empty_fatal_witness :
    calculate_blocksize 0 3 = Except.error "File is empty" :=
  calculate_blocksize_empty_fatal 0 3 (by decide)

/-! ### The renumbering engine: bridges between its entry points -/

theorem labelRow_eq_iff {κ : Type} (m : LabelMap) (nolabel : String)
    (a b : Row2 κ) :
    labelRow m nolabel a = labelRow m nolabel b ↔ a = b := by
  constructor
  · intro h
    have h1 := congrArg Row3.cluster_id h
    have h2 := congrArg Row3.protein_id h
    cases a
    cases b
    simp only [labelRow] at h1 h2
    simp [h1, h2]
  · intro h
    rw [h]

theorem labelRow_cluster_id {κ : Type} (m : LabelMap) (nolabel : String)
    (r : Row2 κ) : (labelRow m nolabel r).cluster_id = r.cluster_id := rfl

theorem labelRow_protein_id {κ : Type} (m : LabelMap) (nolabel : String)
    (r : Row2 κ) : (labelRow m nolabel r).protein_id = r.protein_id := rfl

theorem labelRow_proteome_ids {κ : Type} (m : LabelMap) (nolabel : String)
    (r : Row2 κ) :
    (labelRow m nolabel r).proteome_ids = mapGet m r.protein_id nolabel := rfl

theorem prevLine_map_eq_iff {κ : Type} (m : LabelMap) (nolabel : String)
    (pl : Option (Row2 κ)) (r : Row2 κ) :
    pl.map (labelRow m nolabel) = some (labelRow m nolabel r) ↔ pl = some r := by
  cases pl with
  | none => simp
  | some a => simp [labelRow_eq_iff]

theorem labelProteinsGo_eq_renumberGo {κ : Type} [DecidableEq κ] (m : LabelMap)
    (nolabel : String) (sl uq : Bool) :
    ∀ (rows : List (Row2 κ)) (c : Int) (pC : Option κ) (pl : Option (Row2 κ)),
      labelProteinsGo m nolabel sl uq c pC pl rows =
        ((renumberGo sl uq ⟨c, pC, pl.map (labelRow m nolabel)⟩
            (rows.map (labelRow m nolabel))).1,
          (renumberGo sl uq ⟨c, pC, pl.map (labelRow m nolabel)⟩
            (rows.map (labelRow m nolabel))).2.counter + 1) := by
  intro rows
  induction rows with
  | nil => intro c pC pl; simp [labelProteinsGo, renumberGo]
  | cons r rs ih =>
      intro c pC pl
      cases uq with
      | false =>
          by_cases hch : some r.cluster_id ≠ pC
          · simp [labelProteinsGo, renumberGo, labelRow, hch,
              ih (c + 1) (some r.cluster_id) pl]
          · simp [labelProteinsGo, renumberGo, labelRow, hch, ih c pC pl]
      | true =>
          by_cases hsk : pl = some r
          · subst hsk
            have e1 : labelProteinsGo m nolabel sl true c pC (some r) (r :: rs) =
                labelProteinsGo m nolabel sl true c pC (some r) rs := by
              simp [labelProteinsGo]
            have e2 : renumberGo sl true
                  ⟨c, pC, (some r).map (labelRow m nolabel)⟩
                  ((r :: rs).map (labelRow m nolabel)) =
                renumberGo sl true ⟨c, pC, (some r).map (labelRow m nolabel)⟩
                  (rs.map (labelRow m nolabel)) := by
              simp [renumberGo]
            rw [e1, e2]
            exact ih c pC (some r)
          · have hsk2 : ¬ pl.map (labelRow m nolabel) =
                some (labelRow m nolabel r) :=
              fun h => hsk ((prevLine_map_eq_iff m nolabel pl r).mp h)
            by_cases hch : some r.cluster_id ≠ pC
            · simp only [labelProteinsGo, renumberGo, List.map_cons,
                eq_self_iff_true, true_and, eq_false hsk, eq_false hsk2,
                if_false, labelRow_cluster_id, labelRow_protein_id,
                labelRow_proteome_ids, eq_true hch, if_true,
                Option.map_some']
              rw [ih (c + 1) (some r.cluster_id) (some r)]
              simp
            · simp only [labelProteinsGo, renumberGo, List.map_cons,
                eq_self_iff_true, true_and, eq_false hsk, eq_false hsk2,
                if_false, if_true, labelRow_cluster_id, labelRow_protein_id,
                labelRow_proteome_ids, eq_false hch,
                Option.map_some']
              rw [ih c pC (some r)]
              simp

theorem renumberGo_cons_skip {κ : Type} [DecidableEq κ] (sl uq : Bool)
    (st : EState κ) (r : Row3 κ) (rs : List (Row3 κ))
    (hsk : uq = true ∧ st.prevLine = some r) :
    renumberGo sl uq st (r :: rs) = renumberGo sl uq st rs := by
  simp [renumberGo, hsk.1, hsk.2]

theorem renumberGo_cons_keep {κ : Type} [DecidableEq κ] (sl uq : Bool)
    (st : EState κ) (r : Row3 κ) (rs : List (Row3 κ))
    (hsk : ¬(uq = true ∧ st.prevLine = some r)) :
    renumberGo sl uq st (r :: rs) =
      if some r.cluster_id ≠ st.prevCluster then
        ((⟨st.counter + 1, r.protein_id, applySort sl r.proteome_ids, true⟩ :
            OutRow) ::
            (renumberGo sl uq
              ⟨st.counter + 1, some r.cluster_id,
                if uq then some r else st.prevLine⟩ rs).1,
          (renumberGo sl uq
            ⟨st.counter + 1, some r.cluster_id,
              if uq then some r else st.prevLine⟩ rs).2)
      else
        ((⟨st.counter, r.protein_id, applySort sl r.proteome_ids, false⟩ :
            OutRow) ::
            (renumberGo sl uq
              ⟨st.counter, st.prevCluster,
                if uq then some r else st.prevLine⟩ rs).1,
          (renumberGo sl uq
            ⟨st.counter, st.prevCluster,
              if uq then some r else st.prevLine⟩ rs).2) := by
  cases uq with
  | false => simp [renumberGo]
  | true =>
      have hsk' : ¬ st.prevLine = some r := fun h => hsk ⟨rfl, h⟩
      simp [renumberGo, hsk']

theorem renumberGo_append {κ : Type} [DecidableEq κ] (sl uq : Bool) :
    ∀ (a b : List (Row3 κ)) (st : EState κ),
      renumberGo sl uq st (a ++ b) =
        ((renumberGo sl uq st a).1 ++
            (renumberGo sl uq (renumberGo sl uq st a).2 b).1,
          (renumberGo sl uq (renumberGo sl uq st a).2 b).2) := by
  intro a
  induction a with
  | nil => intro b st; simp [renumberGo]
  | cons r rs ih =>
      intro b st
      by_cases hsk : uq = true ∧ st.prevLine = some r
      · rw [List.cons_append, renumberGo_cons_skip sl uq st r (rs ++ b) hsk,
          renumberGo_cons_skip sl uq st r rs hsk]
        exact ih b st
      · rw [List.cons_append, renumberGo_cons_keep sl uq st r (rs ++ b) hsk,
          renumberGo_cons_keep sl uq st r rs hsk]
        by_cases hch : some r.cluster_id ≠ st.prevCluster
        · simp only [if_pos hch, ih, List.cons_append]
        · simp only [if_neg hch, ih, List.cons_append]

theorem combineChunksGo_flatten {κ : Type} [DecidableEq κ] (sl uq : Bool) :
    ∀ (cs : List (List (Row3 κ))) (st : EState κ),
      combineChunksGo sl uq st cs = renumberGo sl uq st cs.flatten := by
  intro cs
  induction cs with
  | nil => intro st; simp [combineChunksGo, renumberGo]
  | cons c cs ih =>
      intro st
      simp only [combineChunksGo, List.flatten_cons, renumberGo_append, ih]

/-! ### Engine invariants: counters, numbering, representative markers -/

theorem renumberGo_counter_mono {κ : Type} [DecidableEq κ] (sl uq : Bool) :
    ∀ (l : List (Row3 κ)) (st : EState κ),
      st.counter ≤ (renumberGo sl uq st l).2.counter := by
  intro l
  induction l with
  | nil => intro st; simp [renumberGo]
  | cons r rs ih =>
      intro st
      by_cases hsk : uq = true ∧ st.prevLine = some r
      · rw [renumberGo_cons_skip sl uq st r rs hsk]
        exact ih st
      · rw [renumberGo_cons_keep sl uq st r rs hsk]
        by_cases hch : some r.cluster_id ≠ st.prevCluster
        · rw [if_pos hch]
          have h2 := ih (⟨st.counter + 1, some r.cluster_id,
            if uq then some r else st.prevLine⟩ : EState κ)
          exact le_trans (by show st.counter ≤ st.counter + 1; omega) h2
        · rw [if_neg hch]
          exact ih (⟨st.counter, st.prevCluster,
            if uq then some r else st.prevLine⟩ : EState κ)

theorem renumberGo_counter_runs {κ : Type} [DecidableEq κ] (sl uq : Bool) :
    ∀ (l : List (Row3 κ)) (st : EState κ),
      (uq = true → ∀ r : Row3 κ, st.prevLine = some r →
        st.prevCluster = some r.cluster_id) →
      ((renumberGo sl uq st l).2.counter : Int) =
        st.counter + numRunsFrom st.prevCluster (l.map Row3.cluster_id) := by
  intro l
  induction l with
  | nil => intro st h; simp [renumberGo, numRunsFrom]
  | cons r rs ih =>
      intro st h
      by_cases hsk : uq = true ∧ st.prevLine = some r
      · rw [renumberGo_cons_skip sl uq st r rs hsk]
        have hpc : st.prevCluster = some r.cluster_id := h hsk.1 r hsk.2
        rw [ih st h, List.map_cons, numRunsFrom, hpc]
        simp
      · rw [renumberGo_cons_keep sl uq st r rs hsk]
        by_cases hch : some r.cluster_id ≠ st.prevCluster
        · rw [if_pos hch]
          have h' : uq = true → ∀ r' : Row3 κ,
              (⟨st.counter + 1, some r.cluster_id,
                if uq then some r else st.prevLine⟩ : EState κ).prevLine =
                  some r' →
              (⟨st.counter + 1, some r.cluster_id,
                if uq then some r else st.prevLine⟩ : EState κ).prevCluster =
                some r'.cluster_id := by
            intro huq r' hpl
            rw [huq] at hpl
            simp only [if_true] at hpl
            cases hpl
            rfl
          rw [ih (⟨st.counter + 1, some r.cluster_id,
            if uq then some r else st.prevLine⟩ : EState κ) h']
          rw [List.map_cons, numRunsFrom]
          rw [if_neg (fun hx => hch hx)]
          push_cast
          ring
        · rw [if_neg hch]
          have hch' : some r.cluster_id = st.prevCluster := not_ne_iff.mp hch
          have h' : uq = true → ∀ r' : Row3 κ,
              (⟨st.counter, st.prevCluster,
                if uq then some r else st.prevLine⟩ : EState κ).prevLine =
                  some r' →
              (⟨st.counter, st.prevCluster,
                if uq then some r else st.prevLine⟩ : EState κ).prevCluster =
                some r'.cluster_id := by
            intro huq r' hpl
            rw [huq] at hpl
            simp only [if_true] at hpl
            cases hpl
            exact hch'.symm
          rw [ih (⟨st.counter, st.prevCluster,
            if uq then some r else st.prevLine⟩ : EState κ) h']
          rw [List.map_cons, numRunsFrom, if_pos hch', hch']
          simp

theorem renumberGo_val_bounds {κ : Type} [DecidableEq κ] (sl uq : Bool) :
    ∀ (l : List (Row3 κ)) (st : EState κ) (o : OutRow),
      o ∈ (renumberGo sl uq st l).1 →
      st.counter ≤ o.cluster_id ∧
        o.cluster_id ≤ (renumberGo sl uq st l).2.counter ∧
        (st.prevCluster = none → st.counter + 1 ≤ o.cluster_id) := by
  intro l
  induction l with
  | nil => intro st o ho; simp [renumberGo] at ho
  | cons r rs ih =>
      intro st o ho
      by_cases hsk : uq = true ∧ st.prevLine = some r
      · rw [renumberGo_cons_skip sl uq st r rs hsk] at ho ⊢
        exact ih st o ho
      · rw [renumberGo_cons_keep sl uq st r rs hsk] at ho ⊢
        by_cases hch : some r.cluster_id ≠ st.prevCluster
        · rw [if_pos hch] at ho ⊢
          have hmono := renumberGo_counter_mono sl uq rs
            (⟨st.counter + 1, some r.cluster_id,
              if uq then some r else st.prevLine⟩ : EState κ)
          simp only [List.mem_cons] at ho
          rcases ho with ho | ho
          · subst ho
            refine ⟨?_, ?_, fun _ => ?_⟩
            · show st.counter ≤ st.counter + 1
              omega
            · show st.counter + 1 ≤ (renumberGo sl uq
                (⟨st.counter + 1, some r.cluster_id,
                  if uq then some r else st.prevLine⟩ : EState κ) rs).2.counter
              exact hmono
            · show st.counter + 1 ≤ st.counter + 1
              omega
          · obtain ⟨hb1, hb2, _⟩ := ih (⟨st.counter + 1, some r.cluster_id,
              if uq then some r else st.prevLine⟩ : EState κ) o ho
            have hb1' : st.counter + 1 ≤ o.cluster_id := hb1
            exact ⟨by omega, hb2, fun _ => by omega⟩
        · rw [if_neg hch] at ho ⊢
          have hpc : some r.cluster_id = st.prevCluster := not_ne_iff.mp hch
          have hnn : st.prevCluster ≠ none := by
            rw [← hpc]
            simp
          have hmono := renumberGo_counter_mono sl uq rs
            (⟨st.counter, st.prevCluster,
              if uq then some r else st.prevLine⟩ : EState κ)
          simp only [List.mem_cons] at ho
          rcases ho with ho | ho
          · subst ho
            refine ⟨le_refl _, ?_, fun hx => absurd hx hnn⟩
            show st.counter ≤ (renumberGo sl uq
              (⟨st.counter, st.prevCluster,
                if uq then some r else st.prevLine⟩ : EState κ) rs).2.counter
            exact hmono
          · obtain ⟨hb1, hb2, _⟩ := ih (⟨st.counter, st.prevCluster,
              if uq then some r else st.prevLine⟩ : EState κ) o ho
            exact ⟨hb1, hb2, fun hx => absurd hx hnn⟩

theorem renumberGo_vals_sorted {κ : Type} [DecidableEq κ] (sl uq : Bool) :
    ∀ (l : List (Row3 κ)) (st : EState κ),
      List.Chain' (· ≤ ·)
        (st.counter :: (renumberGo sl uq st l).1.map OutRow.cluster_id) := by
  intro l
  induction l with
  | nil => intro st; simp [renumberGo]
  | cons r rs ih =>
      intro st
      by_cases hsk : uq = true ∧ st.prevLine = some r
      · rw [renumberGo_cons_skip sl uq st r rs hsk]
        exact ih st
      · rw [renumberGo_cons_keep sl uq st r rs hsk]
        by_cases hch : some r.cluster_id ≠ st.prevCluster
        · rw [if_pos hch]
          have h2 := ih (⟨st.counter + 1, some r.cluster_id,
            if uq then some r else st.prevLine⟩ : EState κ)
          simp only [EState.counter] at h2
          simp only [List.map_cons]
          exact List.chain'_cons.mpr ⟨by omega, h2⟩
        · rw [if_neg hch]
          have h2 := ih (⟨st.counter, st.prevCluster,
            if uq then some r else st.prevLine⟩ : EState κ)
          simp only [EState.counter] at h2
          simp only [List.map_cons]
          exact List.chain'_cons.mpr ⟨le_refl _, h2⟩

theorem renumberGo_vals_surj {κ : Type} [DecidableEq κ] (sl uq : Bool) :
    ∀ (l : List (Row3 κ)) (st : EState κ) (k : Int),
      st.counter < k → k ≤ (renumberGo sl uq st l).2.counter →
      k ∈ (renumberGo sl uq st l).1.map OutRow.cluster_id := by
  intro l
  induction l with
  | nil =>
      intro st k h1 h2
      simp only [renumberGo] at h2
      omega
  | cons r rs ih =>
      intro st k h1 h2
      by_cases hsk : uq = true ∧ st.prevLine = some r
      · rw [renumberGo_cons_skip sl uq st r rs hsk] at h2 ⊢
        exact ih st k h1 h2
      · rw [renumberGo_cons_keep sl uq st r rs hsk] at h2 ⊢
        by_cases hch : some r.cluster_id ≠ st.prevCluster
        · rw [if_pos hch] at h2 ⊢
          simp only [List.map_cons, List.mem_cons]
          by_cases hk : k = st.counter + 1
          · exact Or.inl hk
          · right
            exact ih (⟨st.counter + 1, some r.cluster_id,
              if uq then some r else st.prevLine⟩ : EState κ) k
              (by show st.counter + 1 < k; omega) h2
        · rw [if_neg hch] at h2 ⊢
          simp only [List.map_cons, List.mem_cons]
          right
          exact ih (⟨st.counter, st.prevCluster,
            if uq then some r else st.prevLine⟩ : EState κ) k h1 h2

theorem renumberGo_rep_spec {κ : Type} [DecidableEq κ] (sl uq : Bool) :
    ∀ (l : List (Row3 κ)) (st : EState κ),
      (∀ o ∈ (renumberGo sl uq st l).1,
        o.cluster_id = st.counter → o.is_rep = false) ∧
      (∀ v : Int, st.counter < v → ∀ o rest,
        (renumberGo sl uq st l).1.filter (fun o => o.cluster_id = v) =
          o :: rest →
        o.is_rep = true ∧ ∀ o' ∈ rest, o'.is_rep = false) := by
  intro l
  induction l with
  | nil =>
      intro st
      constructor
      · intro o ho
        simp [renumberGo] at ho
      · intro v hv o rest hfil
        simp [renumberGo] at hfil
  | cons r rs ih =>
      intro st
      by_cases hsk : uq = true ∧ st.prevLine = some r
      · rw [renumberGo_cons_skip sl uq st r rs hsk]
        exact ih st
      · rw [renumberGo_cons_keep sl uq st r rs hsk]
        by_cases hch : some r.cluster_id ≠ st.prevCluster
        · rw [if_pos hch]
          obtain ⟨iha, ihb⟩ := ih (⟨st.counter + 1, some r.cluster_id,
            if uq then some r else st.prevLine⟩ : EState κ)
          constructor
          · intro o ho hval
            simp only [List.mem_cons] at ho
            rcases ho with ho | ho
            · subst ho
              have hx : st.counter + 1 = st.counter := hval
              omega
            · obtain ⟨hb1, _, _⟩ := renumberGo_val_bounds sl uq rs
                (⟨st.counter + 1, some r.cluster_id,
                  if uq then some r else st.prevLine⟩ : EState κ) o ho
              have hb1' : st.counter + 1 ≤ o.cluster_id := hb1
              omega
          · intro v hv o rest hfil
            by_cases hveq : v = st.counter + 1
            · subst hveq
              rw [List.filter_cons] at hfil
              simp only [decide_eq_true_eq] at hfil
              rw [if_pos (by simp)] at hfil
              obtain ⟨ho1, ho2⟩ := List.cons.inj hfil
              constructor
              · rw [← ho1]
              · intro o' ho'
                rw [← ho2] at ho'
                have hmem := List.mem_filter.mp ho'
                exact iha o' hmem.1 (by simpa using hmem.2)
            · rw [List.filter_cons] at hfil
              simp only [decide_eq_true_eq] at hfil
              rw [if_neg (fun hx =>
                hveq (show st.counter + 1 = v from hx).symm)] at hfil
              exact ihb v (by show st.counter + 1 < v; omega) o rest hfil
        · rw [if_neg hch]
          obtain ⟨iha, ihb⟩ := ih (⟨st.counter, st.prevCluster,
            if uq then some r else st.prevLine⟩ : EState κ)
          constructor
          · intro o ho hval
            simp only [List.mem_cons] at ho
            rcases ho with ho | ho
            · subst ho
              rfl
            · exact iha o ho hval
          · intro v hv o rest hfil
            rw [List.filter_cons] at hfil
            simp only [decide_eq_true_eq] at hfil
            rw [if_neg (fun hx => by
              have hx' : st.counter = v := hx
              omega)] at hfil
            exact ihb v hv o rest hfil

theorem renumber_top_spec {κ : Type} [DecidableEq κ] (sl uq : Bool)
    (l : List (Row3 κ)) :
    List.Chain' (· ≤ ·)
        ((renumberGo sl uq (⟨-1, none, none⟩ : EState κ) l).1.map
          OutRow.cluster_id) ∧
      (∀ o ∈ (renumberGo sl uq (⟨-1, none, none⟩ : EState κ) l).1,
        0 ≤ o.cluster_id ∧
          o.cluster_id ≤
            (renumberGo sl uq (⟨-1, none, none⟩ : EState κ) l).2.counter) ∧
      (∀ k : Int, 0 ≤ k →
        k ≤ (renumberGo sl uq (⟨-1, none, none⟩ : EState κ) l).2.counter →
        k ∈ (renumberGo sl uq (⟨-1, none, none⟩ : EState κ) l).1.map
          OutRow.cluster_id) ∧
      ((renumberGo sl uq (⟨-1, none, none⟩ : EState κ) l).2.counter : Int) =
        -1 + numRuns (l.map Row3.cluster_id) := by
  refine ⟨?_, ?_, ?_, ?_⟩
  · have h := renumberGo_vals_sorted sl uq l (⟨-1, none, none⟩ : EState κ)
    exact h.tail
  · intro o ho
    obtain ⟨hb0, hb1, hb2⟩ :=
      renumberGo_val_bounds sl uq l (⟨-1, none, none⟩ : EState κ) o ho
    have hb2' : (-1 : Int) + 1 ≤ o.cluster_id := hb2 rfl
    exact ⟨by omega, hb1⟩
  · intro k hk0 hk1
    exact renumberGo_vals_surj sl uq l (⟨-1, none, none⟩ : EState κ) k
      (by show (-1 : Int) < k; omega) hk1
  · have h := renumberGo_counter_runs sl uq l (⟨-1, none, none⟩ : EState κ)
      (by intro _ r hpl; cases hpl)
    exact h

theorem renumber_top_rep {κ : Type} [DecidableEq κ] (sl uq : Bool)
    (l : List (Row3 κ)) (v : Int) (o : OutRow) (rest : List OutRow)
    (hfil : (renumberGo sl uq (⟨-1, none, none⟩ : EState κ) l).1.filter
        (fun o => o.cluster_id = v) = o :: rest) :
    o.is_rep = true ∧ ∀ o' ∈ rest, o'.is_rep = false := by
  have homem : o ∈ (renumberGo sl uq (⟨-1, none, none⟩ : EState κ) l).1.filter
      (fun o => o.cluster_id = v) := by
    rw [hfil]
    exact List.mem_cons_self _ _
  have h2 := List.mem_filter.mp homem
  have hval : o.cluster_id = v := by simpa using h2.2
  obtain ⟨hb0, hb1, hb2⟩ :=
    renumberGo_val_bounds sl uq l (⟨-1, none, none⟩ : EState κ) o h2.1
  have hb2' : (-1 : Int) + 1 ≤ o.cluster_id := hb2 rfl
  exact (renumberGo_rep_spec sl uq l (⟨-1, none, none⟩ : EState κ)).2 v
    (by show (-1 : Int) < v; omega) o rest hfil

theorem label_proteins_eq_renumber {κ : Type} [DecidableEq κ] (m : LabelMap)
    (nolabel : String) (sl uq : Bool) (rows : List (Row2 κ)) :
    label_proteins m nolabel sl uq rows =
      ((renumberGo sl uq (⟨-1, none, none⟩ : EState κ)
          (rows.map (labelRow m nolabel))).1,
        (renumberGo sl uq (⟨-1, none, none⟩ : EState κ)
          (rows.map (labelRow m nolabel))).2.counter + 1) := by
  rw [label_proteins, labelProteinsGo_eq_renumberGo]
  rfl

theorem combine_output_chunks_eq_renumber {κ : Type} [DecidableEq κ]
    (sl uq : Bool) (chunks : List (List (Row3 κ))) :
    combine_output_chunks sl uq chunks =
      ((renumberGo sl uq (⟨-1, none, none⟩ : EState κ) chunks.flatten).1,
        (renumberGo sl uq (⟨-1, none, none⟩ : EState κ)
          chunks.flatten).2.counter + 1) := by
  simp only [combine_output_chunks, combineChunksGo_flatten]

theorem combineFilesGo_skeleton {κ : Type} [DecidableEq κ] (sl uq : Bool) :
    ∀ (first : List (Row3 κ)) (others : List (List (Row3 κ)))
      (c : Int) (pC : Option κ) (pp : Option (κ × String)),
      (combineFilesGo sl uq c pC pp first others).1.map
          (fun o => (o.cluster_id, o.protein_id, o.is_rep)) =
        (renumberGo sl uq
            (⟨c, pC, pp.map (fun q => (⟨q.1, q.2, ""⟩ : Row3 κ))⟩ : EState κ)
            ((first.take (zipLen first others)).map
              (fun r => (⟨r.cluster_id, r.protein_id, ""⟩ : Row3 κ)))).1.map
          (fun o => (o.cluster_id, o.protein_id, o.is_rep)) ∧
      (combineFilesGo sl uq c pC pp first others).2 =
        (renumberGo sl uq
            (⟨c, pC, pp.map (fun q => (⟨q.1, q.2, ""⟩ : Row3 κ))⟩ : EState κ)
            ((first.take (zipLen first others)).map
              (fun r => (⟨r.cluster_id, r.protein_id, ""⟩ : Row3 κ)))).2.counter
          + 1 := by
  intro first
  induction first with
  | nil =>
      intro others c pC pp
      simp [combineFilesGo, zipLen, renumberGo]
  | cons r rs ih =>
      intro others c pC pp
      have hppiff : pp.map (fun q => (⟨q.1, q.2, ""⟩ : Row3 κ)) =
          some (⟨r.cluster_id, r.protein_id, ""⟩ : Row3 κ) ↔
          pp = some (r.cluster_id, r.protein_id) := by
        cases pp with
        | none => simp
        | some q =>
            simp only [Option.map_some', Option.some.injEq, Row3.mk.injEq,
              Prod.ext_iff]
            constructor
            · rintro ⟨h1, h2, h3⟩
              exact ⟨h1, h2⟩
            · rintro ⟨h1, h2⟩
              exact ⟨h1, h2, trivial⟩
      cases hha : others.any (fun cc => cc.isEmpty) with
      | true =>
          have hzl : zipLen (r :: rs) others = 0 := by
            simp only [zipLen, hha, if_true]
          rw [hzl]
          simp [combineFilesGo, hha, renumberGo]
      | false =>
          have hzl : zipLen (r :: rs) others =
              zipLen rs (others.map List.tail) + 1 := by
            simp only [zipLen, hha, Bool.false_eq_true, if_false]
          rw [hzl, List.take_succ_cons, List.map_cons]
          cases uq with
          | false =>
              by_cases hch : some r.cluster_id ≠ pC
              · obtain ⟨ih1, ih2⟩ := ih (others.map List.tail) (c + 1)
                  (some r.cluster_id) pp
                simp only [combineFilesGo, renumberGo, hha,
                  Bool.false_eq_true, false_and, if_false, eq_true hch,
                  if_true, List.map_cons]
                exact ⟨by rw [ih1], by rw [ih2]⟩
              · obtain ⟨ih1, ih2⟩ := ih (others.map List.tail) c pC pp
                simp only [combineFilesGo, renumberGo, hha,
                  Bool.false_eq_true, false_and, if_false, eq_false hch,
                  List.map_cons]
                exact ⟨by rw [ih1], by rw [ih2]⟩
          | true =>
              by_cases hsk : pp = some (r.cluster_id, r.protein_id)
              · have hsk2 : pp.map (fun q => (⟨q.1, q.2, ""⟩ : Row3 κ)) =
                    some (⟨r.cluster_id, r.protein_id, ""⟩ : Row3 κ) :=
                  hppiff.mpr hsk
                obtain ⟨ih1, ih2⟩ := ih (others.map List.tail) c pC pp
                simp only [combineFilesGo, renumberGo, hha,
                  Bool.false_eq_true, if_false, eq_self_iff_true, true_and,
                  eq_true hsk, eq_true hsk2, if_true]
                exact ⟨ih1, ih2⟩
              · have hsk2 : ¬ pp.map (fun q => (⟨q.1, q.2, ""⟩ : Row3 κ)) =
                    some (⟨r.cluster_id, r.protein_id, ""⟩ : Row3 κ) :=
                  fun hx => hsk (hppiff.mp hx)
                by_cases hch : some r.cluster_id ≠ pC
                · obtain ⟨ih1, ih2⟩ := ih (others.map List.tail) (c + 1)
                    (some r.cluster_id) (some (r.cluster_id, r.protein_id))
                  simp only [Option.map_some'] at ih1 ih2
                  simp only [combineFilesGo, renumberGo, hha,
                    Bool.false_eq_true, if_false, eq_self_iff_true, true_and,
                    eq_false hsk, eq_false hsk2, eq_true hch, if_true,
                    List.map_cons]
                  exact ⟨by rw [ih1], by rw [ih2]⟩
                · obtain ⟨ih1, ih2⟩ := ih (others.map List.tail) c pC
                    (some (r.cluster_id, r.protein_id))
                  simp only [Option.map_some'] at ih1 ih2
                  simp only [combineFilesGo, renumberGo, hha,
                    Bool.false_eq_true, if_false, eq_self_iff_true, true_and,
                    eq_false hsk, eq_false hsk2, eq_false hch, if_true,
                    if_false, List.map_cons]
                  exact ⟨by rw [ih1], by rw [ih2]⟩

/-- **C3** — the `cluster_sequence` values written by `label_proteins` (by
the final `combine_output_chunks` pass, and by the final
`combine_output_files` pass over the rows its lock-step zip reads) form a
monotone sequence whose values are exactly `0, 1, ..., K - 1` with no gaps,
where `K`, also the function's return value, is the number of distinct
maximal runs of rows with equal cluster key in the processed input stream. -/
theorem cluster_numbering {κ : Type} [DecidableEq κ] (m : LabelMap)
    (nolabel : String) (sortlabels uniq : Bool) (rows : List (Row2 κ))
    (chunks : List (List (Row3 κ)))
    (first : List (Row3 κ)) (others : List (List (Row3 κ))) :
    (List.Chain' (· ≤ ·)
        ((label_proteins m nolabel sortlabels uniq rows).1.map
          OutRow.cluster_id) ∧
      (∀ o ∈ (label_proteins m nolabel sortlabels uniq rows).1,
        0 ≤ o.cluster_id ∧
          o.cluster_id < (label_proteins m nolabel sortlabels uniq rows).2) ∧
      (∀ k : Int, 0 ≤ k →
        k < (label_proteins m nolabel sortlabels uniq rows).2 →
        k ∈ (label_proteins m nolabel sortlabels uniq rows).1.map
          OutRow.cluster_id) ∧
      (label_proteins m nolabel sortlabels uniq rows).2 =
        (numRuns (rows.map Row2.cluster_id) : Int)) ∧
    (List.Chain' (· ≤ ·)
        ((combine_output_chunks sortlabels uniq chunks).1.map
          OutRow.cluster_id) ∧
      (∀ o ∈ (combine_output_chunks sortlabels uniq chunks).1,
        0 ≤ o.cluster_id ∧
          o.cluster_id < (combine_output_chunks sortlabels uniq chunks).2) ∧
      (∀ k : Int, 0 ≤ k →
        k < (combine_output_chunks sortlabels uniq chunks).2 →
        k ∈ (combine_output_chunks sortlabels uniq chunks).1.map
          OutRow.cluster_id) ∧
      (combine_output_chunks sortlabels uniq chunks).2 =
        (numRuns (chunks.flatten.map Row3.cluster_id) : Int)) ∧
    (List.Chain' (· ≤ ·)
        ((combine_output_files sortlabels uniq (first :: others)).1.map
          OutRow.cluster_id) ∧
      (∀ o ∈ (combine_output_files sortlabels uniq (first :: others)).1,
        0 ≤ o.cluster_id ∧
          o.cluster_id <
            (combine_output_files sortlabels uniq (first :: others)).2) ∧
      (∀ k : Int, 0 ≤ k →
        k < (combine_output_files sortlabels uniq (first :: others)).2 →
        k ∈ (combine_output_files sortlabels uniq (first :: others)).1.map
          OutRow.cluster_id) ∧
      (combine_output_files sortlabels uniq (first :: others)).2 =
        (numRuns ((first.take (zipLen first others)).map Row3.cluster_id) :
          Int)) := by
  refine ⟨?_, ?_, ?_⟩
  · rw [label_proteins_eq_renumber m nolabel sortlabels uniq rows]
    obtain ⟨hs, hb, hj, hc⟩ :=
      renumber_top_spec sortlabels uniq (rows.map (labelRow m nolabel))
    have hkeys : (rows.map (labelRow m nolabel)).map Row3.cluster_id =
        rows.map Row2.cluster_id := by
      rw [List.map_map]
      rfl
    rw [hkeys] at hc
    refine ⟨hs, ?_, ?_, by omega⟩
    · intro o ho
      obtain ⟨hb1, hb2⟩ := hb o ho
      exact ⟨hb1, by omega⟩
    · intro k hk0 hk1
      exact hj k hk0 (by omega)
  · rw [combine_output_chunks_eq_renumber sortlabels uniq chunks]
    obtain ⟨hs, hb, hj, hc⟩ := renumber_top_spec sortlabels uniq chunks.flatten
    refine ⟨hs, ?_, ?_, by omega⟩
    · intro o ho
      obtain ⟨hb1, hb2⟩ := hb o ho
      exact ⟨hb1, by omega⟩
    · intro k hk0 hk1
      exact hj k hk0 (by omega)
  · rw [show combine_output_files sortlabels uniq (first :: others) =
      combineFilesGo sortlabels uniq (-1) none none first others from rfl]
    obtain ⟨hmap, hcnt⟩ :=
      combineFilesGo_skeleton sortlabels uniq first others (-1) none none
    simp only [Option.map_none'] at hmap hcnt
    obtain ⟨hs, hb, hj, hc⟩ := renumber_top_spec sortlabels uniq
      ((first.take (zipLen first others)).map
        (fun r : Row3 κ => (⟨r.cluster_id, r.protein_id, ""⟩ : Row3 κ)))
    have hkeys : ((first.take (zipLen first others)).map
        (fun r : Row3 κ => (⟨r.cluster_id, r.protein_id, ""⟩ : Row3 κ))).map
          Row3.cluster_id =
        (first.take (zipLen first others)).map Row3.cluster_id := by
      rw [List.map_map]
      rfl
    rw [hkeys] at hc
    have h1 : (combineFilesGo sortlabels uniq (-1) none none
        first others).1.map OutRow.cluster_id =
        (renumberGo sortlabels uniq (⟨-1, none, none⟩ : EState κ)
          ((first.take (zipLen first others)).map
            (fun r : Row3 κ =>
              (⟨r.cluster_id, r.protein_id, ""⟩ : Row3 κ)))).1.map
          OutRow.cluster_id := by
      have h := congrArg
        (List.map (fun t : Int × String × Bool => t.1)) hmap
      simpa only [List.map_map] using h
    refine ⟨?_, ?_, ?_, by omega⟩
    · rw [h1]
      exact hs
    · intro o ho
      have hmem : (o.cluster_id, o.protein_id, o.is_rep) ∈
          (renumberGo sortlabels uniq (⟨-1, none, none⟩ : EState κ)
            ((first.take (zipLen first others)).map
              (fun r : Row3 κ =>
                (⟨r.cluster_id, r.protein_id, ""⟩ : Row3 κ)))).1.map
            (fun o => (o.cluster_id, o.protein_id, o.is_rep)) := by
        rw [← hmap]
        exact List.mem_map.mpr ⟨o, ho, rfl⟩
      obtain ⟨o2, ho2, heq⟩ := List.mem_map.mp hmem
      have hcl : o2.cluster_id = o.cluster_id := congrArg Prod.fst heq
      obtain ⟨hb1, hb2⟩ := hb o2 ho2
      exact ⟨by omega, by omega⟩
    · intro k hk0 hk1
      rw [h1]
      exact hj k hk0 (by omega)

/-- **C4** — in the output of `label_proteins` and in the final
`combine_output_chunks` pass, for each distinct `cluster_sequence` value the
first row carrying it is marked as representative and every later row with
the same value is unmarked: whenever the rows with a given value are
`o :: rest`, `o` carries the marker and no row of `rest` does. -/
theorem representative_marker {κ : Type} [DecidableEq κ] (m : LabelMap)
    (nolabel : String) (sortlabels uniq : Bool) (rows : List (Row2 κ))
    (chunks : List (List (Row3 κ))) :
    (∀ v : Int, ∀ o rest,
      (label_proteins m nolabel sortlabels uniq rows).1.filter
          (fun o => o.cluster_id = v) = o :: rest →
      o.is_rep = true ∧ ∀ o' ∈ rest, o'.is_rep = false) ∧
    (∀ v : Int, ∀ o rest,
      (combine_output_chunks sortlabels uniq chunks).1.filter
          (fun o => o.cluster_id = v) = o :: rest →
      o.is_rep = true ∧ ∀ o' ∈ rest, o'.is_rep = false) := by
  constructor
  · intro v o rest hfil
    rw [label_proteins_eq_renumber m nolabel sortlabels uniq rows] at hfil
    exact renumber_top_rep sortlabels uniq (rows.map (labelRow m nolabel))
      v o rest hfil
  · intro v o rest hfil
    rw [combine_output_chunks_eq_renumber sortlabels uniq chunks] at hfil
    exact renumber_top_rep sortlabels uniq chunks.flatten v o rest hfil

/-! ### Idempotence of the `uniq` collapse (C9) -/

theorem renumberGo_vals_runs {κ : Type} [DecidableEq κ] (sl uq : Bool) :
    ∀ (l : List (Row3 κ)) (st : EState κ),
      (uq = true → ∀ r : Row3 κ, st.prevLine = some r →
        st.prevCluster = some r.cluster_id) →
      (numRunsFrom (some st.counter)
          ((renumberGo sl uq st l).1.map OutRow.cluster_id) : Int) =
        (renumberGo sl uq st l).2.counter - st.counter := by
  intro l
  induction l with
  | nil => intro st h; simp [renumberGo, numRunsFrom]
  | cons r rs ih =>
      intro st h
      by_cases hsk : uq = true ∧ st.prevLine = some r
      · rw [renumberGo_cons_skip sl uq st r rs hsk]
        exact ih st h
      · rw [renumberGo_cons_keep sl uq st r rs hsk]
        by_cases hch : some r.cluster_id ≠ st.prevCluster
        · rw [if_pos hch]
          have h' : uq = true → ∀ r' : Row3 κ,
              (⟨st.counter + 1, some r.cluster_id,
                if uq then some r else st.prevLine⟩ : EState κ).prevLine =
                  some r' →
              (⟨st.counter + 1, some r.cluster_id,
                if uq then some r else st.prevLine⟩ : EState κ).prevCluster =
                some r'.cluster_id := by
            intro huq r' hpl
            rw [huq] at hpl
            simp only [if_true] at hpl
            cases hpl
            rfl
          have hih := ih (⟨st.counter + 1, some r.cluster_id,
            if uq then some r else st.prevLine⟩ : EState κ) h'
          have hmono := renumberGo_counter_mono sl uq rs
            (⟨st.counter + 1, some r.cluster_id,
              if uq then some r else st.prevLine⟩ : EState κ)
          have hmono' : st.counter + 1 ≤ (renumberGo sl uq
            (⟨st.counter + 1, some r.cluster_id,
              if uq then some r else st.prevLine⟩ : EState κ) rs).2.counter :=
            hmono
          have hih' : (numRunsFrom (some (st.counter + 1))
              ((renumberGo sl uq (⟨st.counter + 1, some r.cluster_id,
                if uq then some r else st.prevLine⟩ : EState κ) rs).1.map
                OutRow.cluster_id) : Int) =
              (renumberGo sl uq (⟨st.counter + 1, some r.cluster_id,
                if uq then some r else st.prevLine⟩ : EState κ)
                rs).2.counter - (st.counter + 1) := hih
          simp only [List.map_cons, numRunsFrom]
          rw [if_neg (by
            intro hx
            have hx' : st.counter + 1 = st.counter := Option.some.inj hx
            omega)]
          push_cast
          omega
        · rw [if_neg hch]
          have hch' : some r.cluster_id = st.prevCluster := not_ne_iff.mp hch
          have h' : uq = true → ∀ r' : Row3 κ,
              (⟨st.counter, st.prevCluster,
                if uq then some r else st.prevLine⟩ : EState κ).prevLine =
                  some r' →
              (⟨st.counter, st.prevCluster,
                if uq then some r else st.prevLine⟩ : EState κ).prevCluster =
                some r'.cluster_id := by
            intro huq r' hpl
            rw [huq] at hpl
            simp only [if_true] at hpl
            cases hpl
            exact hch'.symm
          have hih : (numRunsFrom (some st.counter)
              ((renumberGo sl uq (⟨st.counter, st.prevCluster,
                if uq then some r else st.prevLine⟩ : EState κ) rs).1.map
                OutRow.cluster_id) : Int) =
              (renumberGo sl uq (⟨st.counter, st.prevCluster,
                if uq then some r else st.prevLine⟩ : EState κ)
                rs).2.counter - st.counter :=
            ih (⟨st.counter, st.prevCluster,
              if uq then some r else st.prevLine⟩ : EState κ) h'
          simp only [List.map_cons, numRunsFrom, if_pos rfl]
          push_cast
          omega

theorem renumberGo_out_chain {κ : Type} [DecidableEq κ] (sl : Bool)
    (g : String → String) :
    ∀ (l : List (Row3 κ)) (st : EState κ),
      (∀ r ∈ l, r.proteome_ids = g r.protein_id) →
      (∀ r : Row3 κ, st.prevLine = some r →
        r.proteome_ids = g r.protein_id) →
      (∀ r : Row3 κ, st.prevLine = some r →
        st.prevCluster = some r.cluster_id) →
      List.Chain'
          (fun a b : OutRow =>
            ¬(a.cluster_id = b.cluster_id ∧ a.protein_id = b.protein_id))
          (renumberGo sl true st l).1 ∧
        (∀ o : OutRow, (renumberGo sl true st l).1.head? = some o →
          ∀ r : Row3 κ, st.prevLine = some r →
            ¬(o.cluster_id = st.counter ∧ o.protein_id = r.protein_id)) := by
  intro l
  induction l with
  | nil =>
      intro st hl hpl hcons
      constructor
      · simp [renumberGo]
      · intro o ho
        simp [renumberGo] at ho
  | cons r rs ih =>
      intro st hl hpl hcons
      have hlr : r.proteome_ids = g r.protein_id := hl r (by simp)
      have hlrs : ∀ r' ∈ rs, r'.proteome_ids = g r'.protein_id :=
        fun r' hr' => hl r' (by simp [hr'])
      by_cases hsk : st.prevLine = some r
      · rw [renumberGo_cons_skip sl true st r rs ⟨rfl, hsk⟩]
        exact ih st hlrs hpl hcons
      · rw [renumberGo_cons_keep sl true st r rs (fun hx => hsk hx.2)]
        by_cases hch : some r.cluster_id ≠ st.prevCluster
        · rw [if_pos hch]
          obtain ⟨ihc, ihh⟩ := ih (⟨st.counter + 1, some r.cluster_id,
              some r⟩ : EState κ) hlrs
            (by intro r' hpl'; cases hpl'; exact hlr)
            (by intro r' hpl'; cases hpl'; rfl)
          have hch2 := ihh
          constructor
          · rw [List.chain'_cons']
            refine ⟨?_, ihc⟩
            intro o2 ho2
            intro hcontra
            exact hch2 o2 ho2 r rfl
              ⟨hcontra.1.symm, hcontra.2.symm⟩
          · intro o ho r' hpl'
            simp only [List.head?_cons, Option.some.injEq] at ho
            subst ho
            intro hcontra
            have hx : st.counter + 1 = st.counter := hcontra.1
            omega
        · rw [if_neg hch]
          have hch' : some r.cluster_id = st.prevCluster := not_ne_iff.mp hch
          obtain ⟨ihc, ihh⟩ := ih (⟨st.counter, st.prevCluster,
              some r⟩ : EState κ) hlrs
            (by intro r' hpl'; cases hpl'; exact hlr)
            (by intro r' hpl'; cases hpl'; exact hch'.symm)
          constructor
          · rw [List.chain'_cons']
            refine ⟨?_, ihc⟩
            intro o2 ho2
            intro hcontra
            exact ihh o2 ho2 r rfl ⟨hcontra.1.symm, hcontra.2.symm⟩
          · intro o ho r' hpl'
            simp only [List.head?_cons, Option.some.injEq] at ho
            subst ho
            intro hcontra
            have hpid : r.protein_id = r'.protein_id := hcontra.2
            have hkey : st.prevCluster = some r'.cluster_id := hcons r' hpl'
            have hkey2 : r.cluster_id = r'.cluster_id := by
              rw [hkey] at hch'
              exact Option.some.inj hch'
            have hprot : r.proteome_ids = r'.proteome_ids := by
              rw [hlr, hpl r' hpl', hpid]
            apply hsk
            rw [hpl']
            congr 1
            cases r
            cases r'
            simp only at hpid hkey2 hprot
            simp [hpid, hkey2, hprot]

theorem renumberGo_no_skip_length {κ : Type} [DecidableEq κ] (sl : Bool) :
    ∀ (l : List (Row3 κ)) (st : EState κ),
      List.Chain' (· ≠ ·) l →
      (∀ r : Row3 κ, st.prevLine = some r → l.head? ≠ some r) →
      (renumberGo sl true st l).1.length = l.length := by
  intro l
  induction l with
  | nil => intro st _ _; simp [renumberGo]
  | cons r rs ih =>
      intro st hchain hhead
      have hsk : ¬(true = true ∧ st.prevLine = some r) := by
        rintro ⟨-, hpl⟩
        exact hhead r hpl (by simp)
      rw [renumberGo_cons_keep sl true st r rs hsk]
      obtain ⟨hlink, hchain'⟩ := List.chain'_cons'.mp hchain
      have hhead' : ∀ r' : Row3 κ, some r = some r' → rs.head? ≠ some r' := by
        intro r' hr' hh
        cases hr'
        cases hh' : rs.head? with
        | none => rw [hh'] at hh; cases hh
        | some b =>
            rw [hh'] at hh
            have hb : b = r := (Option.some.inj hh)
            exact hlink b hh' (by rw [hb])
      by_cases hch : some r.cluster_id ≠ st.prevCluster
      · rw [if_pos hch]
        simp only [List.length_cons]
        have hx : (renumberGo sl true (⟨st.counter + 1, some r.cluster_id,
            some r⟩ : EState κ) rs).1.length = rs.length :=
          ih _ hchain' hhead'
        exact congrArg (· + 1) hx
      · rw [if_neg hch]
        simp only [List.length_cons]
        have hx : (renumberGo sl true (⟨st.counter, st.prevCluster,
            some r⟩ : EState κ) rs).1.length = rs.length :=
          ih _ hchain' hhead'
        exact congrArg (· + 1) hx

theorem numRunsFrom_eq_numRuns {α : Type} [DecidableEq α] (l : List α)
    (p : Option α) (h : ∀ v, l.head? = some v → some v ≠ p) :
    numRunsFrom p l = numRuns l := by
  cases l with
  | nil => rfl
  | cons v vs =>
      have hv : some v ≠ p := h v rfl
      simp [numRuns, numRunsFrom, hv]

/-- **C9** — running the engine a second time with `uniq` enabled on its own
prior output reduced back to the two input columns yields the same number of
output rows and the same returned cluster count as the first application:
the first pass already collapsed every run of identical adjacent rows, so
the second pass drops nothing (whatever map, placeholder and sorting options
either pass uses). -/
theorem uniq_idempotent {κ : Type} [DecidableEq κ] (m m2 : LabelMap)
    (nolabel nolabel2 : String) (sl sl2 : Bool) (rows : List (Row2 κ)) :
    (label_proteins m2 nolabel2 sl2 true
        ((label_proteins m nolabel sl true rows).1.map stripOutRow)).1.length =
      (label_proteins m nolabel sl true rows).1.length ∧
    (label_proteins m2 nolabel2 sl2 true
        ((label_proteins m nolabel sl true rows).1.map stripOutRow)).2 =
      (label_proteins m nolabel sl true rows).2 := by
  have h1 := label_proteins_eq_renumber m nolabel sl true rows
  have hchainD := (renumberGo_out_chain sl (fun pid => mapGet m pid nolabel)
      (rows.map (labelRow m nolabel)) (⟨-1, none, none⟩ : EState κ)
      (by
        intro r hr
        obtain ⟨a, ha, rfl⟩ := List.mem_map.mp hr
        rfl)
      (by intro r h; cases h)
      (by intro r h; cases h)).1
  have hout1 : (label_proteins m nolabel sl true rows).1 =
      (renumberGo sl true (⟨-1, none, none⟩ : EState κ)
        (rows.map (labelRow m nolabel))).1 := by rw [h1]
  have hchain2 : List.Chain' (· ≠ ·)
      ((label_proteins m nolabel sl true rows).1.map stripOutRow) := by
    rw [hout1, List.chain'_map]
    refine List.Chain'.imp ?_ hchainD
    intro a b hab hcontra
    apply hab
    have h1' := congrArg (Row2.cluster_id (κ := Int)) hcontra
    have h2' := congrArg (Row2.protein_id (κ := Int)) hcontra
    exact ⟨h1', h2'⟩
  have h2 := label_proteins_eq_renumber m2 nolabel2 sl2 true
    ((label_proteins m nolabel sl true rows).1.map stripOutRow)
  have hchain3 : List.Chain' (· ≠ ·)
      (((label_proteins m nolabel sl true rows).1.map stripOutRow).map
        (labelRow m2 nolabel2)) := by
    rw [List.chain'_map]
    refine List.Chain'.imp ?_ hchain2
    intro a b hab hcontra
    exact hab ((labelRow_eq_iff m2 nolabel2 a b).mp hcontra)
  have hlen : (renumberGo sl2 true (⟨-1, none, none⟩ : EState (Int))
      (((label_proteins m nolabel sl true rows).1.map stripOutRow).map
        (labelRow m2 nolabel2))).1.length =
      (((label_proteins m nolabel sl true rows).1.map stripOutRow).map
        (labelRow m2 nolabel2)).length :=
    renumberGo_no_skip_length sl2 _ _ hchain3 (by intro r h; cases h)
  constructor
  · rw [h2]
    simp only [List.length_map] at hlen ⊢
    exact hlen
  · have hruns1 := renumberGo_vals_runs sl true
      (rows.map (labelRow m nolabel)) (⟨-1, none, none⟩ : EState κ)
      (by intro _ r h; cases h)
    have hruns2 := renumberGo_counter_runs sl2 true
      (((label_proteins m nolabel sl true rows).1.map stripOutRow).map
        (labelRow m2 nolabel2)) (⟨-1, none, none⟩ : EState (Int))
      (by intro _ r h; cases h)
    have hkeys : ((((label_proteins m nolabel sl true rows).1.map
        stripOutRow).map (labelRow m2 nolabel2)).map Row3.cluster_id) =
        (label_proteins m nolabel sl true rows).1.map OutRow.cluster_id := by
      rw [List.map_map, List.map_map]
      rfl
    rw [hkeys] at hruns2
    have hcong : numRunsFrom (some (-1 : Int))
        ((label_proteins m nolabel sl true rows).1.map OutRow.cluster_id) =
        numRuns
          ((label_proteins m nolabel sl true rows).1.map OutRow.cluster_id) := by
      apply numRunsFrom_eq_numRuns
      intro v hv
      have hvmem : v ∈ (label_proteins m nolabel sl true rows).1.map
          OutRow.cluster_id := List.mem_of_mem_head? hv
      obtain ⟨o, homem, rfl⟩ := List.mem_map.mp hvmem
      rw [hout1] at homem
      obtain ⟨hb0, hb1, hb2⟩ := renumberGo_val_bounds sl true _
        (⟨-1, none, none⟩ : EState κ) o homem
      have hb2' : (-1 : Int) + 1 ≤ o.cluster_id := hb2 rfl
      intro hx
      have hx' : o.cluster_id = -1 := Option.some.inj hx
      omega
    have hV : ((label_proteins m nolabel sl true rows).1.map
        OutRow.cluster_id) = ((renumberGo sl true
        (⟨-1, none, none⟩ : EState κ) (rows.map (labelRow m nolabel))).1.map
        OutRow.cluster_id) := by rw [hout1]
    rw [hV] at hruns2 hcong
    simp only [numRuns] at hcong
    have e1 : (label_proteins m nolabel sl true rows).2 =
        (renumberGo sl true (⟨-1, none, none⟩ : EState κ)
          (rows.map (labelRow m nolabel))).2.counter + 1 := by rw [h1]
    have e2 : (label_proteins m2 nolabel2 sl2 true
        ((label_proteins m nolabel sl true rows).1.map stripOutRow)).2 =
        (renumberGo sl2 true (⟨-1, none, none⟩ : EState Int)
          (((label_proteins m nolabel sl true rows).1.map stripOutRow).map
            (labelRow m2 nolabel2))).2.counter + 1 := by rw [h2]
    have hruns1' : (numRunsFrom (some (-1 : Int))
        ((renumberGo sl true (⟨-1, none, none⟩ : EState κ)
          (rows.map (labelRow m nolabel))).1.map OutRow.cluster_id) : Int) =
        (renumberGo sl true (⟨-1, none, none⟩ : EState κ)
          (rows.map (labelRow m nolabel))).2.counter - (-1) := hruns1
    have hruns2' : ((renumberGo sl2 true (⟨-1, none, none⟩ : EState Int)
          (((label_proteins m nolabel sl true rows).1.map stripOutRow).map
            (labelRow m2 nolabel2))).2.counter : Int) =
        (-1) + (numRunsFrom (none : Option Int)
          ((renumberGo sl true (⟨-1, none, none⟩ : EState κ)
            (rows.map (labelRow m nolabel))).1.map OutRow.cluster_id) : Int) :=
      hruns2
    rw [e1, e2, hruns2']
    omega

/-! ### Batch passes on a chunk: reduction to a single labelling -/

theorem combineLabels_empty_left (x : String) : combineLabels "" x = x := by
  simp [combineLabels]

theorem relabel2Go_true {κ : Type} [DecidableEq κ] (m : LabelMap)
    (nolabel : String) :
    ∀ (rows : List (Row2 κ)) (p : Option (Row2 κ)),
      relabel2Go m nolabel true p rows =
        (collapseFrom p rows).map (labelRow m nolabel) := by
  intro rows
  induction rows with
  | nil => intro p; simp [relabel2Go, collapseFrom]
  | cons r rs ih =>
      intro p
      by_cases hp : p = some r
      · have hp' : p = some r ↔ True := iff_of_true hp trivial
        simp [relabel2Go, collapseFrom, hp, ih]
      · simp [relabel2Go, collapseFrom, hp, ih, labelRow]

theorem relabel3_foldl {κ : Type} (nolabel : String) :
    ∀ (maps : List LabelMap) (rows : List (Row3 κ)),
      maps.foldl (fun rs mp => relabel3 mp nolabel rs) rows =
        rows.map (fun r =>
          ⟨r.cluster_id, r.protein_id,
            maps.foldl
              (fun acc mp => combineLabels acc (mapGet mp r.protein_id nolabel))
              r.proteome_ids⟩) := by
  intro maps
  induction maps with
  | nil =>
      intro rows
      simp only [List.foldl_nil]
      have : (fun r : Row3 κ =>
          (⟨r.cluster_id, r.protein_id, r.proteome_ids⟩ : Row3 κ)) = id := by
        funext r
        rfl
      rw [this, List.map_id]
  | cons mp maps ih =>
      intro rows
      simp only [List.foldl_cons]
      rw [ih (relabel3 mp nolabel rows)]
      simp only [relabel3, List.map_map]
      rfl

theorem applyBatchPasses_inr {κ : Type} [DecidableEq κ] (nolabel : String)
    (uq : Bool) :
    ∀ (maps : List LabelMap) (rows : List (Row3 κ)),
      applyBatchPasses nolabel uq maps (Sum.inr rows) =
        Sum.inr (maps.foldl (fun rs mp => relabel3 mp nolabel rs) rows) := by
  intro maps
  induction maps with
  | nil => intro rows; simp [applyBatchPasses]
  | cons mp maps ih =>
      intro rows
      simp only [applyBatchPasses, List.foldl_cons] at ih ⊢
      rw [show re_label_proteins mp nolabel uq (Sum.inr rows) =
        Sum.inr (relabel3 mp nolabel rows) from rfl]
      exact ih (relabel3 mp nolabel rows)

theorem applyBatchPasses_inl {κ : Type} [DecidableEq κ] (nolabel : String)
    (uq : Bool) (m0 : LabelMap) (rest : List LabelMap) (c : List (Row2 κ)) :
    applyBatchPasses nolabel uq (m0 :: rest) (Sum.inl c) =
      Sum.inr ((if uq then collapseFrom none c else c).map
        (fun r : Row2 κ =>
          (⟨r.cluster_id, r.protein_id,
            (m0 :: rest).foldl
              (fun acc mp => combineLabels acc (mapGet mp r.protein_id nolabel))
              ""⟩ : Row3 κ))) := by
  have h1 : applyBatchPasses nolabel uq (m0 :: rest) (Sum.inl c) =
      applyBatchPasses nolabel uq rest
        (Sum.inr (relabel2 m0 nolabel uq c)) := by
    simp only [applyBatchPasses, List.foldl_cons]
    rfl
  rw [h1, applyBatchPasses_inr, relabel2]
  have h2 : relabel2Go m0 nolabel uq none c =
      (if uq then collapseFrom none c else c).map (labelRow m0 nolabel) := by
    cases uq with
    | false => simp [relabel2Go_false]
    | true => simp [relabel2Go_true]
  rw [h2, relabel3_foldl]
  congr 1
  rw [List.map_map]
  congr 1

/-! ### Accumulated label strings: additivity across batches -/

theorem commaTail_append (xs ys : List String) :
    commaTail (xs ++ ys) = commaTail xs ++ commaTail ys := by
  induction xs with
  | nil => simp [commaTail]
  | cons x xs ih => simp [commaTail, ih, String.append_assoc]

theorem joinOpt_some_eq (ls : List String) :
    ∀ v, joinOpt (some v) ls = some (v ++ commaTail ls) := by
  induction ls with
  | nil => intro v; simp [joinOpt, commaTail]
  | cons l ls ih =>
      intro v
      rw [joinOpt_cons_some, ih, commaTail]
      simp [String.append_assoc]

theorem joinOpt_none_cons_eq (l : String) (ls : List String) :
    joinOpt none (l :: ls) = some (l ++ commaTail ls) := by
  rw [joinOpt_cons_none, joinOpt_some_eq]

theorem noLeadComma_ne_empty {s : String} (h : noLeadComma s) : s ≠ "" := by
  intro hx
  rw [hx] at h
  exact h rfl

theorem append_ne_empty_left {a b : String} (h : a ≠ "") : a ++ b ≠ "" := by
  intro hx
  apply h
  have hd := congrArg String.data hx
  rw [String.data_append] at hd
  have : a.data = [] := List.append_eq_nil.mp hd |>.1
  cases a
  simp at this
  simp [this]

theorem noLeadComma_append {a : String} (b : String) (h : noLeadComma a) :
    noLeadComma (a ++ b) := by
  have hne : a ≠ "" := noLeadComma_ne_empty h
  have hdata : a.data ≠ [] := by
    intro hx
    apply hne
    cases a
    simp at hx
    simp [hx]
  cases hd : a.data with
  | nil => exact absurd hd hdata
  | cons c cs =>
      show ((a ++ b).data).headD ',' ≠ ','
      rw [String.data_append, hd]
      simp only [List.cons_append, List.headD_cons]
      have h2 : a.data.headD ',' ≠ ',' := h
      rw [hd] at h2
      simpa using h2

theorem combineLabels_empty_right (v : String) : combineLabels v "" = v := by
  by_cases hv : v = "" <;> simp [combineLabels, hv]

theorem combineLabels_joinOpt (ls1 ls2 : List String)
    (h1 : ∀ l ∈ ls1, noLeadComma l) (h2 : ∀ l ∈ ls2, noLeadComma l) :
    combineLabels ((joinOpt none ls1).getD "") ((joinOpt none ls2).getD "") =
      (joinOpt none (ls1 ++ ls2)).getD "" := by
  cases ls1 with
  | nil => simp [combineLabels_empty_left]
  | cons a t1 =>
      have ha : noLeadComma a := h1 a (by simp)
      have hane : a ++ commaTail t1 ≠ "" :=
        append_ne_empty_left (noLeadComma_ne_empty ha)
      cases ls2 with
      | nil =>
          rw [List.append_nil]
          simp [combineLabels_empty_right]
      | cons b t2 =>
          have hb : noLeadComma b := h2 b (by simp)
          have hbne : b ++ commaTail t2 ≠ "" :=
            append_ne_empty_left (noLeadComma_ne_empty hb)
          rw [joinOpt_none_cons_eq, joinOpt_none_cons_eq]
          rw [show (a :: t1) ++ (b :: t2) = a :: (t1 ++ b :: t2) from rfl]
          rw [joinOpt_none_cons_eq]
          simp only [Option.getD_some]
          rw [combineLabels, if_pos hane, if_pos hbne]
          rw [commaTail_append, commaTail]
          simp [String.append_assoc]

theorem mapFind_create (ext pre : Option String) (files : List SourceFile)
    (key : String) :
    mapFind (create_proteome_protein_map ext pre files) key =
      joinOpt none (occLabels ext pre files key) := by
  have h := mapFind_create_foldl ext pre files [] key
  simpa [create_proteome_protein_map, mapFind] using h

theorem mapGet_create_eq (ext pre : Option String) (files : List SourceFile)
    (key : String) :
    mapGet (create_proteome_protein_map ext pre files) key "" =
      (joinOpt none (occLabels ext pre files key)).getD "" := by
  rw [mapGet, mapFind_create]

theorem occLabels_append (ext pre : Option String) (g1 g2 : List SourceFile)
    (key : String) :
    occLabels ext pre (g1 ++ g2) key =
      occLabels ext pre g1 key ++ occLabels ext pre g2 key := by
  simp [occLabels]

theorem occLabels_flatten (ext pre : Option String) (key : String) :
    ∀ (groups : List (List SourceFile)),
      occLabels ext pre groups.flatten key =
        (groups.map (fun g => occLabels ext pre g key)).flatten := by
  intro groups
  induction groups with
  | nil => simp [occLabels]
  | cons g gs ih =>
      simp only [List.flatten_cons, List.map_cons]
      rw [occLabels_append, ih]

theorem occLabels_noLead (ext pre : Option String) (files : List SourceFile)
    (key : String)
    (hlab : ∀ f ∈ files, noLeadComma (deriveProteomeId ext pre f.name)) :
    ∀ l ∈ occLabels ext pre files key, noLeadComma l := by
  intro l hl
  simp only [occLabels, List.mem_flatten, List.mem_map] at hl
  obtain ⟨ls, ⟨f, hf, rfl⟩, hmem⟩ := hl
  simp only [fileOccLabels, List.mem_replicate] at hmem
  rw [hmem.2]
  exact hlab f hf

theorem fold_combine_groups_aux (ext pre : Option String) (key : String) :
    ∀ (groups : List (List SourceFile)) (ls0 : List String),
      (∀ l ∈ ls0, noLeadComma l) →
      (∀ f ∈ groups.flatten, noLeadComma (deriveProteomeId ext pre f.name)) →
      (groups.map
          (fun g => mapGet (create_proteome_protein_map ext pre g) key "")).foldl
        (fun acc s => combineLabels acc s) ((joinOpt none ls0).getD "") =
      (joinOpt none
        (ls0 ++ (groups.map (fun g => occLabels ext pre g key)).flatten)).getD
        "" := by
  intro groups
  induction groups with
  | nil => intro ls0 h0 hg; simp
  | cons g gs ih =>
      intro ls0 h0 hg
      have hgthis : ∀ f ∈ g, noLeadComma (deriveProteomeId ext pre f.name) :=
        fun f hf => hg f (by simp [hf])
      have hgrest : ∀ f ∈ gs.flatten,
          noLeadComma (deriveProteomeId ext pre f.name) :=
        fun f hf => hg f (by simp [hf])
      have hocc : ∀ l ∈ occLabels ext pre g key, noLeadComma l :=
        occLabels_noLead ext pre g key hgthis
      simp only [List.map_cons, List.foldl_cons]
      rw [mapGet_create_eq, combineLabels_joinOpt ls0 _ h0 hocc]
      rw [ih (ls0 ++ occLabels ext pre g key)
        (by
          intro l hl
          rcases List.mem_append.mp hl with hl | hl
          · exact h0 l hl
          · exact hocc l hl)
        hgrest]
      simp [List.append_assoc]

theorem fold_combine_groups (ext pre : Option String) (key : String)
    (groups : List (List SourceFile))
    (hlab : ∀ f ∈ groups.flatten,
      noLeadComma (deriveProteomeId ext pre f.name)) :
    (groups.map
        (fun g => mapGet (create_proteome_protein_map ext pre g) key "")).foldl
      (fun acc s => combineLabels acc s) "" =
      mapGet (create_proteome_protein_map ext pre groups.flatten) key "" := by
  have h := fold_combine_groups_aux ext pre key groups [] (by simp) hlab
  simp only [List.nil_append] at h
  rw [show ((joinOpt none ([] : List String)).getD "") = "" from rfl] at h
  rw [h, mapGet_create_eq, occLabels_flatten]

/-! ### Absorption of per-chunk `uniq` collapses into the final pass -/

theorem renumberGo_collapse {κ : Type} [DecidableEq κ] (sl : Bool) :
    ∀ (l : List (Row3 κ)) (st : EState κ) (q : Option (Row3 κ)),
      (q = none ∨ q = st.prevLine) →
      renumberGo sl true st (collapseFrom q l) = renumberGo sl true st l := by
  intro l
  induction l with
  | nil => intro st q hq; simp [collapseFrom]
  | cons r rs ih =>
      intro st q hq
      by_cases hqr : q = some r
      · have hpl : st.prevLine = some r := by
          rcases hq with hq | hq
          · rw [hq] at hqr
            cases hqr
          · rw [← hq, hqr]
        rw [show collapseFrom q (r :: rs) = collapseFrom q rs from by
          simp [collapseFrom, hqr]]
        rw [renumberGo_cons_skip sl true st r rs ⟨rfl, hpl⟩]
        exact ih st q (Or.inr (by rw [hqr, hpl]))
      · rw [show collapseFrom q (r :: rs) = r :: collapseFrom (some r) rs from by
          simp [collapseFrom, hqr]]
        by_cases hpl : st.prevLine = some r
        · rw [renumberGo_cons_skip sl true st r (collapseFrom (some r) rs)
            ⟨rfl, hpl⟩, renumberGo_cons_skip sl true st r rs ⟨rfl, hpl⟩]
          exact ih st (some r) (Or.inr hpl.symm)
        · have hsk : ¬(true = true ∧ st.prevLine = some r) := fun hx => hpl hx.2
          rw [renumberGo_cons_keep sl true st r (collapseFrom (some r) rs) hsk,
            renumberGo_cons_keep sl true st r rs hsk]
          by_cases hch : some r.cluster_id ≠ st.prevCluster
          · rw [if_pos hch, if_pos hch]
            have hrec := ih (⟨st.counter + 1, some r.cluster_id,
                if true then some r else st.prevLine⟩ : EState κ) (some r)
              (Or.inr (by simp))
            rw [hrec]
          · rw [if_neg hch, if_neg hch]
            have hrec := ih (⟨st.counter, st.prevCluster,
                if true then some r else st.prevLine⟩ : EState κ) (some r)
              (Or.inr (by simp))
            rw [hrec]

theorem renumberGo_flatten_collapse {κ : Type} [DecidableEq κ] (sl : Bool) :
    ∀ (cs : List (List (Row3 κ))) (st : EState κ),
      renumberGo sl true st ((cs.map (collapseFrom none)).flatten) =
        renumberGo sl true st cs.flatten := by
  intro cs
  induction cs with
  | nil => intro st; simp
  | cons c cs ih =>
      intro st
      simp only [List.map_cons, List.flatten_cons]
      rw [renumberGo_append, renumberGo_append]
      rw [renumberGo_collapse sl c st none (Or.inl rfl)]
      rw [ih (renumberGo sl true st c).2]

theorem collapseFrom_map_labelRow {κ : Type} [DecidableEq κ] (m : LabelMap)
    (nolabel : String) :
    ∀ (c : List (Row2 κ)) (p : Option (Row2 κ)),
      (collapseFrom p c).map (labelRow m nolabel) =
        collapseFrom (p.map (labelRow m nolabel))
          (c.map (labelRow m nolabel)) := by
  intro c
  induction c with
  | nil => intro p; simp [collapseFrom]
  | cons r rs ih =>
      intro p
      by_cases hp : p = some r
      · have hp2 : p.map (labelRow m nolabel) = some (labelRow m nolabel r) :=
          (prevLine_map_eq_iff m nolabel p r).mpr hp
        simp only [collapseFrom, List.map_cons, if_pos hp, if_pos hp2]
        exact ih p
      · have hp2 : ¬ p.map (labelRow m nolabel) = some (labelRow m nolabel r) :=
          fun hx => hp ((prevLine_map_eq_iff m nolabel p r).mp hx)
        simp only [collapseFrom, List.map_cons, if_neg hp, if_neg hp2,
          Option.map_some']
        rw [ih (some r)]
        rfl

theorem sharedChunk_eq_sequential {κ : Type} [DecidableEq κ]
    (ext pre : Option String) (sortlabels uniq : Bool)
    (batches : List (List SourceFile)) (chunks : List (List (Row2 κ)))
    (hBne : batches ≠ [])
    (hlab : ∀ f ∈ batches.flatten,
      noLeadComma (deriveProteomeId ext pre f.name)) :
    sharedChunkPipeline "" sortlabels uniq
        (batches.map (create_proteome_protein_map ext pre)) chunks =
      label_proteins (create_proteome_protein_map ext pre batches.flatten) ""
        sortlabels uniq chunks.flatten := by
  obtain ⟨b0, brest, rfl⟩ := List.exists_cons_of_ne_nil hBne
  have hchunk : ∀ c : List (Row2 κ),
      chunkRows3 (applyBatchPasses "" uniq
        ((b0 :: brest).map (create_proteome_protein_map ext pre))
        (Sum.inl c)) =
      (if uniq then collapseFrom none c else c).map
        (labelRow (create_proteome_protein_map ext pre
          (b0 :: brest).flatten) "") := by
    intro c
    rw [List.map_cons, applyBatchPasses_inl, chunkRows3]
    congr 1
    funext r
    rw [labelRow]
    congr 1
    rw [← List.map_cons]
    rw [show ((b0 :: brest).map (create_proteome_protein_map ext pre)).foldl
        (fun acc mp => combineLabels acc (mapGet mp r.protein_id "")) "" =
      (((b0 :: brest).map (create_proteome_protein_map ext pre)).map
        (fun mp => mapGet mp r.protein_id "")).foldl
        (fun acc s => combineLabels acc s) "" from by
      simp [List.foldl_map]]
    rw [List.map_map]
    exact fold_combine_groups ext pre r.protein_id (b0 :: brest) hlab
  rw [sharedChunkPipeline]
  rw [show chunks.map (fun c => chunkRows3 (applyBatchPasses "" uniq
      ((b0 :: brest).map (create_proteome_protein_map ext pre)) (Sum.inl c))) =
    chunks.map (fun c => (if uniq then collapseFrom none c else c).map
      (labelRow (create_proteome_protein_map ext pre (b0 :: brest).flatten)
        "")) from by
    apply List.map_congr_left
    intro c _
    exact hchunk c]
  rw [combine_output_chunks_eq_renumber, label_proteins_eq_renumber]
  cases uniq with
  | false =>
      simp only [Bool.false_eq_true, if_false]
      congr 2 <;>
      · rw [show (chunks.map (fun c => c.map
            (labelRow (create_proteome_protein_map ext pre
              (b0 :: brest).flatten) ""))).flatten =
          chunks.flatten.map (labelRow (create_proteome_protein_map ext pre
            (b0 :: brest).flatten) "") from by
          rw [List.map_flatten]]
  | true =>
      simp only [eq_self_iff_true, if_true]
      rw [show chunks.map (fun c => (collapseFrom none c).map
          (labelRow (create_proteome_protein_map ext pre
            (b0 :: brest).flatten) "")) =
        (chunks.map (fun c => c.map (labelRow (create_proteome_protein_map
          ext pre (b0 :: brest).flatten) ""))).map (collapseFrom none) from by
        rw [List.map_map]
        apply List.map_congr_left
        intro c _
        show (collapseFrom none c).map (labelRow (create_proteome_protein_map
            ext pre (b0 :: brest).flatten) "") =
          collapseFrom none (c.map (labelRow (create_proteome_protein_map
            ext pre (b0 :: brest).flatten) ""))
        have hcm := collapseFrom_map_labelRow (create_proteome_protein_map
          ext pre (b0 :: brest).flatten) "" c none
        simpa using hcm]
      rw [renumberGo_flatten_collapse]
      rw [show (chunks.map (fun c => c.map
          (labelRow (create_proteome_protein_map ext pre
            (b0 :: brest).flatten) ""))).flatten =
        chunks.flatten.map (labelRow (create_proteome_protein_map ext pre
          (b0 :: brest).flatten) "") from by
        rw [List.map_flatten]]

/-! ### The clone-mode merge of label fields -/

theorem lstripCommas_of_noLead {s : String} (h : noLeadComma s) :
    lstripCommas s = s := by
  cases s with
  | mk data =>
      cases data with
      | nil => exact absurd rfl h
      | cons c t =>
          have hc : c ≠ ',' := by simpa using h
          simp [lstripCommas, List.dropWhile_cons, hc]

theorem lstripCommas_comma (s : String) (h : noLeadComma s) :
    lstripCommas ("," ++ s) = s := by
  have hdata : ("," ++ s).data = ',' :: s.data := by
    rw [String.data_append]
    rfl
  rw [lstripCommas, hdata]
  rw [List.dropWhile_cons]
  rw [if_pos (show decide (',' = ',') = true by decide)]
  have h2 := lstripCommas_of_noLead h
  rw [lstripCommas] at h2
  exact h2

theorem rawFold_eq :
    ∀ (ls : List String) (x : String),
      ls.foldl (fun acc np => if np ≠ "" then acc ++ "," ++ np else acc) x =
        x ++ commaTail (ls.filter (fun l => l ≠ "")) := by
  intro ls
  induction ls with
  | nil => intro x; simp [commaTail]
  | cons l ls ih =>
      intro x
      by_cases hl : l = ""
      · simp only [List.foldl_cons, List.filter_cons, hl]
        rw [if_neg (by simp), ih]
        simp
      · simp only [List.foldl_cons, List.filter_cons]
        rw [if_pos (by simpa using hl), if_pos (by simpa using hl), ih]
        rw [commaTail]
        simp [String.append_assoc]

theorem combineFold_nonempty :
    ∀ (ls : List String) (x : String), x ≠ "" →
      ls.foldl (fun acc s => combineLabels acc s) x =
        x ++ commaTail (ls.filter (fun l => l ≠ "")) := by
  intro ls
  induction ls with
  | nil => intro x hx; simp [commaTail]
  | cons l ls ih =>
      intro x hx
      by_cases hl : l = ""
      · simp only [List.foldl_cons, List.filter_cons, hl]
        rw [if_neg (by simp), combineLabels_empty_right, ih x hx]
      · simp only [List.foldl_cons, List.filter_cons]
        rw [if_pos (by simpa using hl)]
        rw [show combineLabels x l = x ++ "," ++ l from by
          simp [combineLabels, hx, hl]]
        rw [ih (x ++ "," ++ l) (append_ne_empty_left
          (append_ne_empty_left hx))]
        rw [commaTail]
        simp [String.append_assoc]

theorem combineFold_empty_eq :
    ∀ (ls : List String),
      ls.foldl (fun acc s => combineLabels acc s) "" =
        match ls.filter (fun l => l ≠ "") with
        | [] => ""
        | l :: t => l ++ commaTail t := by
  intro ls
  induction ls with
  | nil => rfl
  | cons l ls ih =>
      by_cases hl : l = ""
      · simp only [List.foldl_cons, List.filter_cons, hl]
        rw [if_neg (by simp)]
        simpa using ih
      · simp only [List.foldl_cons, List.filter_cons]
        rw [if_pos (by simpa using hl), combineLabels_empty_left]
        exact combineFold_nonempty ls l hl

theorem combineFold_merge (ls : List String) (x : String)
    (hx : x = "" ∨ noLeadComma x) (hl : ∀ l ∈ ls, l = "" ∨ noLeadComma l) :
    lstripCommas
        (ls.foldl (fun acc np => if np ≠ "" then acc ++ "," ++ np else acc) x) =
      ls.foldl (fun acc s => combineLabels acc s) x := by
  rcases hx with hx | hx
  · subst hx
    rw [rawFold_eq, combineFold_empty_eq]
    have hfl : ∀ l ∈ ls.filter (fun l => l ≠ ""), noLeadComma l := by
      intro l hlf
      have hm := List.mem_filter.mp hlf
      rcases hl l hm.1 with hcase | hcase
      · exact absurd hcase (by simpa using hm.2)
      · exact hcase
    cases hfil : ls.filter (fun l => l ≠ "") with
    | nil => simp [commaTail, lstripCommas]
    | cons a t =>
        have ha : noLeadComma a := hfl a (by rw [hfil]; simp)
        rw [commaTail]
        rw [show ("" : String) ++ ("," ++ a ++ commaTail t) =
          "," ++ (a ++ commaTail t) from by simp [String.append_assoc]]
        exact lstripCommas_comma (a ++ commaTail t) (noLeadComma_append _ ha)
  · have hxne : x ≠ "" := noLeadComma_ne_empty hx
    rw [rawFold_eq, combineFold_nonempty ls x hxne]
    exact lstripCommas_of_noLead (noLeadComma_append _ hx)

theorem mapGet_create_noLead (ext pre : Option String)
    (files : List SourceFile) (key : String)
    (hlab : ∀ f ∈ files, noLeadComma (deriveProteomeId ext pre f.name)) :
    mapGet (create_proteome_protein_map ext pre files) key "" = "" ∨
      noLeadComma (mapGet (create_proteome_protein_map ext pre files) key "") := by
  rw [mapGet_create_eq]
  cases hocc : occLabels ext pre files key with
  | nil => left; rfl
  | cons a t =>
      right
      rw [joinOpt_none_cons_eq]
      have ha : noLeadComma a := by
        apply occLabels_noLead ext pre files key hlab
        rw [hocc]
        simp
      simpa using noLeadComma_append (commaTail t) ha

theorem flatten_map_flatten {α : Type} :
    ∀ (L : List (List (List α))),
      (L.map List.flatten).flatten = L.flatten.flatten := by
  intro L
  induction L with
  | nil => rfl
  | cons x xs ih => simp [ih]

theorem combineFilesGo_merge {κ : Type} [DecidableEq κ] (sl uq : Bool)
    (g0 gm : String → String) (gs : List (String → String))
    (hg0 : ∀ pid, g0 pid = "" ∨ noLeadComma (g0 pid))
    (hgs : ∀ g ∈ gs, ∀ pid, g pid = "" ∨ noLeadComma (g pid))
    (hgm : ∀ pid, gm pid =
      (gs.map (fun g => g pid)).foldl (fun acc s => combineLabels acc s)
        (g0 pid)) :
    ∀ (skel : List (Row2 κ)) (c : Int) (pC : Option κ)
      (pp : Option (κ × String)),
      combineFilesGo sl uq c pC pp
          (skel.map (fun r =>
            (⟨r.cluster_id, r.protein_id, g0 r.protein_id⟩ : Row3 κ)))
          (gs.map (fun g => skel.map (fun r =>
            (⟨r.cluster_id, r.protein_id, g r.protein_id⟩ : Row3 κ)))) =
        ((renumberGo sl uq
            (⟨c, pC, pp.map (fun q => (⟨q.1, q.2, gm q.2⟩ : Row3 κ))⟩ :
              EState κ)
            (skel.map (fun r =>
              (⟨r.cluster_id, r.protein_id, gm r.protein_id⟩ : Row3 κ)))).1,
          (renumberGo sl uq
            (⟨c, pC, pp.map (fun q => (⟨q.1, q.2, gm q.2⟩ : Row3 κ))⟩ :
              EState κ)
            (skel.map (fun r =>
              (⟨r.cluster_id, r.protein_id, gm r.protein_id⟩ : Row3 κ)))).2.counter
            + 1) := by
  intro skel
  induction skel with
  | nil => intro c pC pp; simp [combineFilesGo, renumberGo]
  | cons r rs ih =>
      intro c pC pp
      have hha : (gs.map (fun g =>
          (⟨r.cluster_id, r.protein_id, g r.protein_id⟩ : Row3 κ) ::
            rs.map (fun rr : Row2 κ =>
              (⟨rr.cluster_id, rr.protein_id, g rr.protein_id⟩ :
                Row3 κ)))).any (fun cc => cc.isEmpty) = false := by
        simp [List.any_map, Function.comp]
      have htail : (gs.map (fun g =>
          (⟨r.cluster_id, r.protein_id, g r.protein_id⟩ : Row3 κ) ::
            rs.map (fun rr : Row2 κ =>
              (⟨rr.cluster_id, rr.protein_id, g rr.protein_id⟩ :
                Row3 κ)))).map List.tail =
          gs.map (fun g => rs.map (fun rr : Row2 κ =>
            (⟨rr.cluster_id, rr.protein_id, g rr.protein_id⟩ : Row3 κ))) := by
        rw [List.map_map]
        rfl
      have hfold : (gs.map (fun g =>
          (⟨r.cluster_id, r.protein_id, g r.protein_id⟩ : Row3 κ) ::
            rs.map (fun rr : Row2 κ =>
              (⟨rr.cluster_id, rr.protein_id, g rr.protein_id⟩ :
                Row3 κ)))).foldl
          (fun acc cc =>
            if (cc.headD
                (⟨r.cluster_id, "", ""⟩ : Row3 κ)).proteome_ids ≠ "" then
              acc ++ "," ++
                (cc.headD (⟨r.cluster_id, "", ""⟩ : Row3 κ)).proteome_ids
            else acc)
          (g0 r.protein_id) =
          (gs.map (fun g => g r.protein_id)).foldl
            (fun acc np => if np ≠ "" then acc ++ "," ++ np else acc)
            (g0 r.protein_id) := by
        rw [List.foldl_map, List.foldl_map]
        rfl
      have hmerge : lstripCommas
          ((gs.map (fun g => g r.protein_id)).foldl
            (fun acc np => if np ≠ "" then acc ++ "," ++ np else acc)
            (g0 r.protein_id)) = gm r.protein_id := by
        rw [combineFold_merge _ _ (hg0 r.protein_id) (by
          intro l hlmem
          obtain ⟨g, hgmem, rfl⟩ := List.mem_map.mp hlmem
          exact hgs g hgmem r.protein_id)]
        rw [← hgm]
      have hppiff : pp.map (fun q => (⟨q.1, q.2, gm q.2⟩ : Row3 κ)) =
          some (⟨r.cluster_id, r.protein_id, gm r.protein_id⟩ : Row3 κ) ↔
          pp = some (r.cluster_id, r.protein_id) := by
        cases pp with
        | none => simp
        | some q =>
            simp only [Option.map_some', Option.some.injEq, Row3.mk.injEq,
              Prod.ext_iff]
            constructor
            · rintro ⟨h1, h2, h3⟩
              exact ⟨h1, h2⟩
            · rintro ⟨h1, h2⟩
              exact ⟨h1, h2, by rw [h2]⟩
      cases uq with
      | false =>
          by_cases hch : some r.cluster_id ≠ pC
          · simp only [combineFilesGo, renumberGo, List.map_cons, hha,
              Bool.false_eq_true, false_and, if_false, eq_true hch, if_true,
              htail, hfold, hmerge]
            rw [ih (c + 1) (some r.cluster_id) pp]
          · simp only [combineFilesGo, renumberGo, List.map_cons, hha,
              Bool.false_eq_true, false_and, if_false, eq_false hch,
              htail, hfold, hmerge]
            rw [ih c pC pp]
      | true =>
          by_cases hsk : pp = some (r.cluster_id, r.protein_id)
          · have hsk2 : pp.map (fun q => (⟨q.1, q.2, gm q.2⟩ : Row3 κ)) =
                some (⟨r.cluster_id, r.protein_id, gm r.protein_id⟩ :
                  Row3 κ) := hppiff.mpr hsk
            simp only [combineFilesGo, renumberGo, List.map_cons,
              hha, Bool.false_eq_true, if_false, eq_self_iff_true, true_and,
              eq_true hsk, eq_true hsk2, if_true, htail]
            exact ih c pC pp
          · have hsk2 : ¬ pp.map (fun q => (⟨q.1, q.2, gm q.2⟩ : Row3 κ)) =
                some (⟨r.cluster_id, r.protein_id, gm r.protein_id⟩ :
                  Row3 κ) := fun hx => hsk (hppiff.mp hx)
            by_cases hch : some r.cluster_id ≠ pC
            · simp only [combineFilesGo, renumberGo, List.map_cons, hha,
                Bool.false_eq_true, if_false, eq_self_iff_true, true_and,
                eq_false hsk, eq_false hsk2, eq_true hch, if_true, if_false,
                htail, hfold, hmerge]
              rw [ih (c + 1) (some r.cluster_id)
                (some (r.cluster_id, r.protein_id))]
              simp
            · simp only [combineFilesGo, renumberGo, List.map_cons, hha,
                Bool.false_eq_true, if_false, eq_self_iff_true, true_and,
                eq_false hsk, eq_false hsk2, eq_false hch, if_true, if_false,
                htail, hfold, hmerge]
              rw [ih c pC (some (r.cluster_id, r.protein_id))]
              simp

/-- Clone-mode execution agrees with a single sequential labelling pass: with
the default empty `nolabel`, nonempty worker groups and sane derived labels,
zipping the per-worker labelled copies is the same as labelling once with the
map of all files. -/
theorem clone_eq_sequential {κ : Type} [DecidableEq κ]
    (ext pre : Option String) (sortlabels uniq : Bool)
    (wgroups : List (List (List SourceFile))) (input : List (Row2 κ))
    (hWne : wgroups ≠ [])
    (hwne : ∀ ws ∈ wgroups, ws ≠ [])
    (hlab : ∀ f ∈ wgroups.flatten.flatten,
      noLeadComma (deriveProteomeId ext pre f.name)) :
    clonePipeline "" sortlabels uniq
        (wgroups.map (fun ws => ws.map (create_proteome_protein_map ext pre)))
        input =
      label_proteins
        (create_proteome_protein_map ext pre wgroups.flatten.flatten) ""
        sortlabels uniq input := by
  obtain ⟨w0, wrest, rfl⟩ := List.exists_cons_of_ne_nil hWne
  have hsub : ∀ ws ∈ w0 :: wrest, ∀ f ∈ ws.flatten,
      noLeadComma (deriveProteomeId ext pre f.name) := by
    intro ws hws f hf
    apply hlab
    obtain ⟨b, hb, hfb⟩ := List.mem_flatten.mp hf
    exact List.mem_flatten.mpr ⟨b, List.mem_flatten.mpr ⟨ws, hws, hb⟩, hfb⟩
  have hcopy : ∀ ws ∈ w0 :: wrest,
      chunkRows3 (applyBatchPasses "" uniq
        (ws.map (create_proteome_protein_map ext pre)) (Sum.inl input)) =
      (if uniq then collapseFrom none input else input).map
        (fun r : Row2 κ => (⟨r.cluster_id, r.protein_id,
          mapGet (create_proteome_protein_map ext pre ws.flatten)
            r.protein_id ""⟩ : Row3 κ)) := by
    intro ws hws
    obtain ⟨b0, brest, rfl⟩ := List.exists_cons_of_ne_nil (hwne ws hws)
    rw [List.map_cons, applyBatchPasses_inl, chunkRows3]
    congr 1
    funext r
    congr 1
    rw [← fold_combine_groups ext pre r.protein_id (b0 :: brest)
      (hsub _ hws)]
    rw [← List.map_cons (create_proteome_protein_map ext pre) b0 brest]
    simp only [List.foldl_map]
  have hgm : ∀ pid : String,
      mapGet (create_proteome_protein_map ext pre
        (w0 :: wrest).flatten.flatten) pid "" =
      ((wrest.map (fun ws pid => mapGet
          (create_proteome_protein_map ext pre ws.flatten) pid "")).map
        (fun g => g pid)).foldl (fun acc s => combineLabels acc s)
        (mapGet (create_proteome_protein_map ext pre w0.flatten) pid "") := by
    intro pid
    have hl : ∀ f ∈ ((w0 :: wrest).map List.flatten).flatten,
        noLeadComma (deriveProteomeId ext pre f.name) := by
      rw [flatten_map_flatten]
      exact hlab
    have h := fold_combine_groups ext pre pid ((w0 :: wrest).map List.flatten)
      hl
    rw [flatten_map_flatten] at h
    rw [← h, List.map_map, List.map_cons, List.foldl_cons,
      combineLabels_empty_left, List.map_map]
    rfl
  have hg0 : ∀ pid : String,
      mapGet (create_proteome_protein_map ext pre w0.flatten) pid "" = "" ∨
      noLeadComma
        (mapGet (create_proteome_protein_map ext pre w0.flatten) pid "") :=
    fun pid => mapGet_create_noLead ext pre w0.flatten pid
      (hsub w0 (List.mem_cons_self w0 wrest))
  have hgs : ∀ g ∈ wrest.map (fun ws pid => mapGet
      (create_proteome_protein_map ext pre ws.flatten) pid ""), ∀ pid : String,
      g pid = "" ∨ noLeadComma (g pid) := by
    intro g hg pid
    obtain ⟨ws, hws, rfl⟩ := List.mem_map.mp hg
    exact mapGet_create_noLead ext pre ws.flatten pid
      (hsub ws (List.mem_cons_of_mem _ hws))
  simp only [clonePipeline, List.map_map, Function.comp_def]
  rw [List.map_congr_left hcopy]
  rw [List.map_cons]
  simp only [combine_output_files]
  rw [show wrest.map (fun ws =>
      (if uniq then collapseFrom none input else input).map
        (fun r : Row2 κ => (⟨r.cluster_id, r.protein_id,
          mapGet (create_proteome_protein_map ext pre ws.flatten)
            r.protein_id ""⟩ : Row3 κ))) =
      (wrest.map (fun ws pid => mapGet
          (create_proteome_protein_map ext pre ws.flatten) pid "")).map
        (fun g => (if uniq then collapseFrom none input else input).map
          (fun r : Row2 κ => (⟨r.cluster_id, r.protein_id,
            g r.protein_id⟩ : Row3 κ))) from by rw [List.map_map]; rfl]
  rw [combineFilesGo_merge sortlabels uniq
    (fun pid => mapGet (create_proteome_protein_map ext pre w0.flatten) pid "")
    (fun pid => mapGet (create_proteome_protein_map ext pre
      (w0 :: wrest).flatten.flatten) pid "")
    (wrest.map (fun ws pid => mapGet
      (create_proteome_protein_map ext pre ws.flatten) pid ""))
    hg0 hgs hgm (if uniq then collapseFrom none input else input)
    (-1) none none]
  rw [label_proteins_eq_renumber]
  have hlr : (fun r : Row2 κ => (⟨r.cluster_id, r.protein_id,
      mapGet (create_proteome_protein_map ext pre
        (w0 :: wrest).flatten.flatten) r.protein_id ""⟩ : Row3 κ)) =
      labelRow (create_proteome_protein_map ext pre
        (w0 :: wrest).flatten.flatten) "" := rfl
  cases uniq with
  | false =>
      simp only [Bool.false_eq_true, if_false, Option.map_none']
      rw [hlr]
  | true =>
      simp only [if_true, Option.map_none']
      rw [hlr, collapseFrom_map_labelRow, Option.map_none']
      rw [renumberGo_collapse sortlabels
        (input.map (labelRow (create_proteome_protein_map ext pre
          (w0 :: wrest).flatten.flatten) ""))
        (⟨-1, none, none⟩ : EState κ) none (Or.inl rfl)]

/-- **C1** (amended) — with the default empty `nolabel`, at least one batch,
worker groups covering exactly the batch list with every clone worker holding
at least one batch, and derived proteome labels that do not start with a
comma, both execution modes produce exactly the output of one sequential
`label_proteins` pass over the whole input with the map of all source files:
shared-chunk mode (one relabelling pass per batch on every chunk, then
`combine_output_chunks`) and clone mode (each worker labelling its own full
copy, then `combine_output_files`). -/
theorem mode_equivalence {κ : Type} [DecidableEq κ]
    (ext pre : Option String) (sortlabels uniq : Bool)
    (batches : List (List SourceFile))
    (wgroups : List (List (List SourceFile)))
    (chunks : List (List (Row2 κ)))
    (hBne : batches ≠ [])
    (hW : wgroups.flatten = batches)
    (hwne : ∀ ws ∈ wgroups, ws ≠ [])
    (hlab : ∀ f ∈ batches.flatten,
      noLeadComma (deriveProteomeId ext pre f.name)) :
    sharedChunkPipeline "" sortlabels uniq
        (batches.map (create_proteome_protein_map ext pre)) chunks =
      label_proteins (create_proteome_protein_map ext pre batches.flatten) ""
        sortlabels uniq chunks.flatten ∧
    clonePipeline "" sortlabels uniq
        (wgroups.map (fun ws => ws.map (create_proteome_protein_map ext pre)))
        chunks.flatten =
      label_proteins (create_proteome_protein_map ext pre batches.flatten) ""
        sortlabels uniq chunks.flatten := by
  constructor
  · exact sharedChunk_eq_sequential ext pre sortlabels uniq batches chunks
      hBne hlab
  · have hWne : wgroups ≠ [] := by
      intro hx
      rw [hx] at hW
      exact hBne hW.symm
    have hlab2 : ∀ f ∈ wgroups.flatten.flatten,
        noLeadComma (deriveProteomeId ext pre f.name) := by
      rw [hW]
      exact hlab
    have h := clone_eq_sequential ext pre sortlabels uniq wgroups
      chunks.flatten hWne hwne hlab2
    rw [hW] at h
    exact h

/-- Witness for the amended C1 on the two-file scenario of the spec:
batches `[x.fa]`, `[y.fa]`, one clone worker holding both, two chunks. -/
theorem mode_equivalence_witness :
    sharedChunkPipeline "" false false
        ([[(⟨"x.fa", [">p1"]⟩ : SourceFile)],
            [⟨"y.fa", [">p1", ">p3"]⟩]].map
          (create_proteome_protein_map (some ".fa") none))
        [[(⟨"A", "p1"⟩ : Row2 String), ⟨"A", "p2"⟩], [⟨"B", "p3"⟩]] =
      label_proteins
        (create_proteome_protein_map (some ".fa") none
          [[(⟨"x.fa", [">p1"]⟩ : SourceFile)],
            [⟨"y.fa", [">p1", ">p3"]⟩]].flatten) "" false false
        [[(⟨"A", "p1"⟩ : Row2 String), ⟨"A", "p2"⟩],
          [⟨"B", "p3"⟩]].flatten ∧
    clonePipeline "" false false
        ([[[(⟨"x.fa", [">p1"]⟩ : SourceFile)],
            [⟨"y.fa", [">p1", ">p3"]⟩]]].map
          (fun ws => ws.map (create_proteome_protein_map (some ".fa") none)))
        [[(⟨"A", "p1"⟩ : Row2 String), ⟨"A", "p2"⟩],
          [⟨"B", "p3"⟩]].flatten =
      label_proteins
        (create_proteome_protein_map (some ".fa") none
          [[(⟨"x.fa", [">p1"]⟩ : SourceFile)],
            [⟨"y.fa", [">p1", ">p3"]⟩]].flatten) "" false false
        [[(⟨"A", "p1"⟩ : Row2 String), ⟨"A", "p2"⟩],
          [⟨"B", "p3"⟩]].flatten :=
  mode_equivalence (some ".fa") none false false
    [[⟨"x.fa", [">p1"]⟩], [⟨"y.fa", [">p1", ">p3"]⟩]]
    [[[⟨"x.fa", [">p1"]⟩], [⟨"y.fa", [">p1", ">p3"]⟩]]]
    [[⟨"A", "p1"⟩, ⟨"A", "p2"⟩], [⟨"B", "p3"⟩]]
    (by decide) rfl (by decide) (by decide)

/-- **C1** counterexample to the unamended claim — with a non-empty `nolabel`
placeholder (`"?"`), the shared-chunk mode concatenates one placeholder per
batch pass (`"?,?"` after two batches) while a single sequential pass writes
one placeholder, so the outputs are not byte-identical. -/
theorem mode_equivalence_counterexample :
    sharedChunkPipeline "?" false false
        ([[(⟨"g1.fa", []⟩ : SourceFile)], [⟨"g2.fa", []⟩]].map
          (create_proteome_protein_map (some ".fa") none))
        [[(⟨"A", "p"⟩ : Row2 String)]] ≠
      label_proteins
        (create_proteome_protein_map (some ".fa") none
          [[(⟨"g1.fa", []⟩ : SourceFile)], [⟨"g2.fa", []⟩]].flatten)
        "?" false false [[(⟨"A", "p"⟩ : Row2 String)]].flatten := by
  decide

theorem renumberGo_ids {κ : Type} [DecidableEq κ] (sl : Bool) :
    ∀ (l : List (Row3 κ)) (st : EState κ),
      (renumberGo sl false st l).1.map (fun o => o.protein_id) =
        l.map (fun r => r.protein_id) := by
  intro l
  induction l with
  | nil => intro st; rfl
  | cons r rs ih =>
      intro st
      rw [renumberGo_cons_keep sl false st r rs (by simp)]
      by_cases hch : some r.cluster_id ≠ st.prevCluster
      · rw [if_pos hch]
        simp only [List.map_cons, ih]
      · rw [if_neg hch]
        simp only [List.map_cons, ih]

theorem combineFilesGo_ids {κ : Type} [DecidableEq κ] (sl : Bool) :
    ∀ (first : List (Row3 κ)) (others : List (List (Row3 κ)))
      (c : Int) (pC : Option κ) (pp : Option (κ × String)),
      (∀ o ∈ others, o.length = first.length) →
      (combineFilesGo sl false c pC pp first others).1.map
          (fun o => o.protein_id) =
        first.map (fun r => r.protein_id) := by
  intro first
  induction first with
  | nil => intro others c pC pp hlen; rfl
  | cons r rs ih =>
      intro others c pC pp hlen
      have hha : others.any (fun cc => cc.isEmpty) = false := by
        by_contra hx
        rw [Bool.not_eq_false, List.any_eq_true] at hx
        obtain ⟨o, ho, hoe⟩ := hx
        have h := hlen o ho
        cases o with
        | nil => simp at h
        | cons a t => simp at hoe
      have hlen2 : ∀ o ∈ others.map List.tail, o.length = rs.length := by
        intro o ho
        obtain ⟨o2, ho2, rfl⟩ := List.mem_map.mp ho
        have h := hlen o2 ho2
        rw [List.length_tail, h]
        simp
      simp only [combineFilesGo, hha, Bool.false_eq_true, false_and, if_false]
      by_cases hch : some r.cluster_id ≠ pC
      · rw [if_pos hch]
        simp only [List.map_cons]
        rw [ih (others.map List.tail) (c + 1) (some r.cluster_id) pp hlen2]
      · rw [if_neg hch]
        simp only [List.map_cons]
        rw [ih (others.map List.tail) c pC pp hlen2]

theorem sharedChunk_ids {κ : Type} [DecidableEq κ] (nolabel : String)
    (sl : Bool) (maps : List LabelMap) (chunks : List (List (Row2 κ)))
    (hm : maps ≠ []) :
    (sharedChunkPipeline nolabel sl false maps chunks).1.map
        (fun o => o.protein_id) =
      chunks.flatten.map (fun r => r.protein_id) := by
  obtain ⟨m0, mrest, rfl⟩ := List.exists_cons_of_ne_nil hm
  have hchunk : ∀ c ∈ chunks,
      chunkRows3 (applyBatchPasses nolabel false (m0 :: mrest) (Sum.inl c)) =
      c.map (fun r : Row2 κ => (⟨r.cluster_id, r.protein_id,
        (m0 :: mrest).foldl (fun acc mp =>
          combineLabels acc (mapGet mp r.protein_id nolabel)) ""⟩ :
            Row3 κ)) := by
    intro c _
    rw [applyBatchPasses_inl, chunkRows3]
    simp only [Bool.false_eq_true, if_false]
  simp only [sharedChunkPipeline]
  rw [combine_output_chunks_eq_renumber]
  rw [List.map_congr_left hchunk]
  rw [renumberGo_ids, ← List.map_flatten, List.map_map]
  rfl

theorem clone_ids {κ : Type} [DecidableEq κ] (nolabel : String) (sl : Bool)
    (wmaps : List (List LabelMap)) (input : List (Row2 κ))
    (hWne : wmaps ≠ []) (hwne : ∀ ws ∈ wmaps, ws ≠ []) :
    (clonePipeline nolabel sl false wmaps input).1.map
        (fun o => o.protein_id) = input.map (fun r => r.protein_id) := by
  obtain ⟨w0, wrest, rfl⟩ := List.exists_cons_of_ne_nil hWne
  have hcopy : ∀ ws ∈ w0 :: wrest,
      chunkRows3 (applyBatchPasses nolabel false ws (Sum.inl input)) =
      input.map (fun r : Row2 κ => (⟨r.cluster_id, r.protein_id,
        ws.foldl (fun acc mp =>
          combineLabels acc (mapGet mp r.protein_id nolabel)) ""⟩ :
            Row3 κ)) := by
    intro ws hws
    obtain ⟨b0, brest, rfl⟩ := List.exists_cons_of_ne_nil (hwne ws hws)
    rw [applyBatchPasses_inl, chunkRows3]
    simp only [Bool.false_eq_true, if_false]
  simp only [clonePipeline]
  rw [List.map_congr_left hcopy, List.map_cons]
  simp only [combine_output_files]
  rw [combineFilesGo_ids sl _ _ (-1) none none (by
    intro o ho
    obtain ⟨ws, hws, rfl⟩ := List.mem_map.mp ho
    simp)]
  rw [List.map_map]
  rfl

/-- **C2** — with `uniq` disabled, every execution mode writes exactly the
input's `record_id` sequence in the second output column, in input order with
multiplicity: the sequential `label_proteins` pass, the shared-chunk pipeline
(any chunking, at least one batch), and the clone pipeline (any number of
workers, each with at least one batch). -/
theorem order_preservation {κ : Type} [DecidableEq κ]
    (m : LabelMap) (nolabel : String) (sortlabels : Bool)
    (rows : List (Row2 κ))
    (maps : List LabelMap) (wmaps : List (List LabelMap))
    (chunks : List (List (Row2 κ)))
    (hm : maps ≠ [])
    (hWne : wmaps ≠ [])
    (hwne : ∀ ws ∈ wmaps, ws ≠ []) :
    (label_proteins m nolabel sortlabels false rows).1.map
        (fun o => o.protein_id) = rows.map (fun r => r.protein_id) ∧
    (sharedChunkPipeline nolabel sortlabels false maps chunks).1.map
        (fun o => o.protein_id) =
      chunks.flatten.map (fun r => r.protein_id) ∧
    (clonePipeline nolabel sortlabels false wmaps rows).1.map
        (fun o => o.protein_id) = rows.map (fun r => r.protein_id) := by
  refine ⟨?_, sharedChunk_ids nolabel sortlabels maps chunks hm,
    clone_ids nolabel sortlabels wmaps rows hWne hwne⟩
  simp only [label_proteins_eq_renumber, renumberGo_ids, List.map_map]
  rfl

/-- Witness for C2 on a two-row input, one batch, one clone worker, two
chunks. -/
theorem order_preservation_witness :
    ([([("p", "L")] : LabelMap)] ≠ []) ∧
    ((label_proteins [("p", "L")] "?" false false
          [(⟨"A", "p"⟩ : Row2 String), ⟨"B", "q"⟩]).1.map
        (fun o => o.protein_id) =
      [(⟨"A", "p"⟩ : Row2 String), ⟨"B", "q"⟩].map
        (fun r => r.protein_id) ∧
    (sharedChunkPipeline "?" false false [[("p", "L")]]
          [[(⟨"A", "p"⟩ : Row2 String)], [⟨"B", "q"⟩]]).1.map
        (fun o => o.protein_id) =
      [[(⟨"A", "p"⟩ : Row2 String)], [⟨"B", "q"⟩]].flatten.map
        (fun r => r.protein_id) ∧
    (clonePipeline "?" false false [[[("p", "L")]]]
          [(⟨"A", "p"⟩ : Row2 String), ⟨"B", "q"⟩]).1.map
        (fun o => o.protein_id) =
      [(⟨"A", "p"⟩ : Row2 String), ⟨"B", "q"⟩].map
        (fun r => r.protein_id)) :=
  ⟨by decide, order_preservation [("p", "L")] "?" false
    [⟨"A", "p"⟩, ⟨"B", "q"⟩] [[("p", "L")]] [[[("p", "L")]]]
    [[⟨"A", "p"⟩], [⟨"B", "q"⟩]] (by decide) (by decide) (by decide)⟩

end LabelClusters



